import Mathlib

/-!
Verification of the conversational generation core of the Glee desktop
application (src-tauri).  The Rust services, repositories and workers that the
claims refer to are shallowly embedded below: pure functions become Lean
functions, database-backed operations become functions over an explicit store,
and the streaming token filter becomes a state-passing function.

Modelling conventions, used throughout:
  * Rust strings are modelled as lists of Unicode scalar values (one list
    element per char).  All tags, markers and keywords manipulated by the code
    are ASCII, so the byte indices produced by the Rust code coincide with
    list indices in the model.  Where genuine UTF-8 byte counts matter
    (EmbeddingService::generate), byte lengths are computed with Char.utf8Size.
  * i32 values are modelled as unbounded integers; every quantity involved in
    the verified properties stays far away from the 2^31 boundary.
  * f32 arithmetic in estimate_tokens and cosine_similarity is modelled by
    exact rational arithmetic.  The properties proved only depend on exact
    comparisons and small counts, where the f32 computation agrees with the
    exact one.
-/

namespace Glee

/-- Rust string slices, one list element per Unicode scalar value. -/
abbrev RStr := List Char

/-- UTF-8 byte length of a string (Rust str::len). -/
def byteLen (s : RStr) : Nat := (s.map Char.utf8Size).sum

/-- First occurrence index of pattern in a haystack (Rust str::find). -/
def strFind (pat s : RStr) : Option Nat :=
  if pat.isPrefixOf s then some 0
  else
    match s with
    | [] => none
    | _ :: t => (strFind pat t).map (· + 1)

/-- Substring containment (Rust str::contains). -/
def containsStr (s pat : RStr) : Bool := (strFind pat s).isSome

/-- Suffix test (Rust str::ends_with). -/
def endsWithStr (s suf : RStr) : Bool := List.isSuffixOf suf s

/-- Prefix test (Rust str::starts_with). -/
def startsWithStr (s pre : RStr) : Bool := List.isPrefixOf pre s

/-- Per-scalar lowercasing (Rust str::to_lowercase; the multi-char special
cases of full Unicode lowercasing play no role in the verified properties). -/
def lowerStr (s : RStr) : RStr := s.map Char.toLower

/-- Unicode White_Space test (Rust char::is_whitespace). -/
def rustIsWhitespace (c : Char) : Bool :=
  let n := c.toNat
  (0x09 ≤ n && n ≤ 0x0D) || n == 0x20 || n == 0x85 || n == 0xA0 || n == 0x1680 ||
  (0x2000 ≤ n && n ≤ 0x200A) || n == 0x2028 || n == 0x2029 || n == 0x202F ||
  n == 0x205F || n == 0x3000

/-- Rust str::trim_start. -/
def trimStart (s : RStr) : RStr := s.dropWhile rustIsWhitespace

/-- Rust str::trim_end. -/
def trimEnd (s : RStr) : RStr := (s.reverse.dropWhile rustIsWhitespace).reverse

/-- Rust str::trim. -/
def trimStr (s : RStr) : RStr := trimEnd (trimStart s)

/-- Rust char::is_ascii: code point below 128. -/
def isAsciiChar (c : Char) : Bool := c.toNat < 128

/-- Number of ASCII scalars in a string. -/
def asciiCount (s : RStr) : Nat := (s.filter (fun c => isAsciiChar c)).length

/-- Number of non-ASCII scalars in a string. -/
def nonAsciiCount (s : RStr) : Nat := (s.filter (fun c => !isAsciiChar c)).length

/-- services/mod.rs estimate_tokens.  The source returns 0 for the empty
string, otherwise the f32 ceiling of ascii / 3.5 + other * 0.7 with a minimum
of 1.  The rational value ascii / 3.5 + other * 0.7 equals
(20 * ascii + 49 * other) / 70, whose exact ceiling is the integer division
below (the bridge to Mathlib's ceiling is the lemma ceil_div70);
integer arithmetic is used so the definition evaluates inside the kernel. -/
def estimate_tokens (text : RStr) : ℤ :=
  if text.isEmpty then 0
  else
    let ascii : ℕ := asciiCount text
    let other : ℕ := nonAsciiCount text
    max 1 ((20 * (ascii : ℤ) + 49 * (other : ℤ) + 69) / 70)

-- ============================================================
-- services/embeddings.rs
-- ============================================================

/-- Sum of squares of a vector's entries (the argument of sqrt in the
magnitude computations of cosine_similarity). -/
def magSq (v : List ℚ) : ℚ := (v.map (fun x => x * x)).sum

/-- embeddings.rs cosine_similarity.  f32 values and arithmetic are modelled
exactly over ℚ; the f32 square root is modelled by Rat.sqrt, which agrees
with the real square root on the only fact the development uses, namely that
it vanishes exactly on the zero input. -/
def cosine_similarity (a b : List ℚ) : ℚ :=
  if a.length ≠ b.length ∨ a.isEmpty then 0
  else
    let dot : ℚ := ((a.zip b).map (fun p => p.1 * p.2)).sum
    let mag_a : ℚ := Rat.sqrt (magSq a)
    let mag_b : ℚ := Rat.sqrt (magSq b)
    if mag_a = 0 ∨ mag_b = 0 then 0 else dot / (mag_a * mag_b)

/-- A row of the embeddings table after bytes_to_embedding deserialization. -/
structure EmbeddingRow where
  entity_id : RStr
  vec : List ℚ
deriving DecidableEq

/-- One insertion step of a descending-by-similarity stable sort. -/
def insertBySimDesc (x : RStr × ℚ) : List (RStr × ℚ) → List (RStr × ℚ)
  | [] => [x]
  | y :: ys => if y.2 < x.2 then x :: y :: ys else y :: insertBySimDesc x ys

/-- Stable descending sort by similarity (Rust's sort_by with
b.1.partial_cmp(&a.1) is a stable descending sort; comparisons on ℚ are
total, so the unwrap_or(Equal) branch never fires). -/
def sortBySimDesc (l : List (RStr × ℚ)) : List (RStr × ℚ) :=
  l.foldr insertBySimDesc []

/-- embeddings.rs EmbeddingService::find_similar, over the deserialized rows
of the embeddings table for the requested entity type. -/
def find_similar (rows : List EmbeddingRow) (query : List ℚ) (limit : Nat)
    (min_similarity : ℚ) : List (RStr × ℚ) :=
  let results := ((rows.map (fun r => (r.entity_id, cosine_similarity query r.vec))).filter
    (fun p => min_similarity ≤ p.2))
  (sortBySimDesc results).take limit

-- ============================================================
-- services/embeddings.rs  EmbeddingService::generate
-- ============================================================

/-- Prefix of a string holding exactly n UTF-8 bytes (the byte slice
text[..n]); none when n falls strictly inside a multi-byte character, in
which case the Rust slice panics. -/
def takeBytes : RStr → Nat → Option RStr
  | _, 0 => some []
  | [], _ + 1 => none
  | c :: cs, n + 1 =>
    if c.utf8Size ≤ n + 1 then (takeBytes cs (n + 1 - c.utf8Size)).map (c :: ·)
    else none

/-- Outcome of EmbeddingService::generate before the HTTP call: either a
Validation error, the (possibly truncated) text sent to the embedding
endpoint, or a panic of the byte slice text[..8000]. -/
inductive GenerateOutcome
  | validationError
  | sends (text : RStr)
  | panics
deriving DecidableEq

/-- embeddings.rs EmbeddingService::generate: rejects inputs that trim to
empty as Validation, truncates inputs longer than 8000 bytes via the byte
slice text[..8000] (which panics when byte 8000 is not a character
boundary), and otherwise forwards the text unchanged. -/
def EmbeddingService.generate (text : RStr) : GenerateOutcome :=
  if (trimStr text).isEmpty then .validationError
  else if byteLen text > 8000 then
    match takeBytes text 8000 with
    | some t => .sends t
    | none => .panics
  else .sends text

-- ============================================================
-- entities.rs / repositories.rs: lorebooks
-- ============================================================

/-- entities.rs LorebookEntry (fields used by the matching and context
pipeline). -/
structure LorebookEntry where
  id : RStr
  lorebook_id : RStr
  keywords : List RStr
  content : RStr
  priority : ℤ
  is_enabled : Bool
  case_sensitive : Bool
  match_whole_word : Bool
  insertion_position : RStr
deriving DecidableEq

/-- entities.rs Lorebook, with its lorebook_entries rows inlined (the rows of
the lorebook_entries table that reference it, in table order). -/
structure Lorebook where
  id : RStr
  is_global : Bool
  is_enabled : Bool
  deleted_at : Option ℤ
  entries : List LorebookEntry
deriving DecidableEq

/-- One insertion step of a descending-by-priority stable sort. -/
def insertByPriorityDesc (e : LorebookEntry) :
    List LorebookEntry → List LorebookEntry
  | [] => [e]
  | x :: xs =>
    if x.priority < e.priority then e :: x :: xs else x :: insertByPriorityDesc e xs

/-- Stable descending sort by priority (ORDER BY priority DESC in the entry
queries, and the stable sort_by in find_matching_entries). -/
def sortByPriorityDesc (es : List LorebookEntry) : List LorebookEntry :=
  es.foldr insertByPriorityDesc []

/-- repositories.rs LorebookRepo::find_global: global, enabled, not
soft-deleted lorebooks, each with only its enabled entries, ordered by
priority descending. -/
def LorebookRepo.find_global (lbs : List Lorebook) : List Lorebook :=
  (lbs.filter (fun lb => lb.is_global && lb.is_enabled && lb.deleted_at.isNone)).map
    (fun lb => { lb with entries := sortByPriorityDesc (lb.entries.filter (·.is_enabled)) })

/-- repositories.rs LorebookRepo::find_by_id: the first not-soft-deleted
lorebook with the id, with all of its entries ordered by priority
descending. -/
def LorebookRepo.find_by_id (lbs : List Lorebook) (id : RStr) : Option Lorebook :=
  (lbs.find? (fun lb => lb.id == id && lb.deleted_at.isNone)).map
    (fun lb => { lb with entries := sortByPriorityDesc lb.entries })

/-- The keyword test applied by find_matching_entries: substring containment
of the keyword, both sides lowercased unless the entry is case-sensitive.
The entry's match_whole_word flag is not consulted by the source. -/
def keywordMatches (e : LorebookEntry) (text textLower : RStr) (kw : RStr) : Bool :=
  let k := if e.case_sensitive then kw else lowerStr kw
  let t := if e.case_sensitive then text else textLower
  containsStr t k

/-- Keep the first entry for each id, dropping later duplicates (the HashSet
insertion loop of find_matching_entries). -/
def dedupById (seen : List RStr) : List LorebookEntry → List LorebookEntry
  | [] => []
  | e :: es =>
    if e.id ∈ seen then dedupById seen es else e :: dedupById (e.id :: seen) es

/-- The candidate pool collected by find_matching_entries before keyword
filtering: entries of the global enabled lorebooks followed by entries of the
conversation's attached lorebooks that resolve and are enabled. -/
def candidateEntries (lbs : List Lorebook) (convLbIds : List RStr) : List LorebookEntry :=
  (LorebookRepo.find_global lbs).flatMap (·.entries) ++
    convLbIds.flatMap (fun lbId =>
      match LorebookRepo.find_by_id lbs lbId with
      | some lb => if lb.is_enabled then lb.entries else []
      | none => [])

/-- services/mod.rs LorebookService::find_matching_entries, over the lorebooks
table and the conversation's attached lorebook ids. -/
def find_matching_entries (lbs : List Lorebook) (convLbIds : List RStr)
    (text : RStr) : List LorebookEntry :=
  let all_entries := candidateEntries lbs convLbIds
  let textLower := lowerStr text
  let matched := all_entries.filter (fun e =>
    e.is_enabled && e.keywords.any (keywordMatches e text textLower))
  sortByPriorityDesc (dedupById [] matched)

-- ============================================================
-- entities.rs / services/mod.rs: ContextBuilder
-- ============================================================

/-- entities.rs AuthorType. -/
inductive AuthorType
  | user
  | character
  | system
deriving DecidableEq

/-- entities.rs Message (fields used by the verified operations). -/
structure Message where
  id : RStr
  conversation_id : RStr
  parent_id : Option RStr
  author_type : AuthorType
  content : RStr
  is_active_branch : Bool
  branch_index : ℤ
  token_count : ℤ
deriving DecidableEq

/-- entities.rs Character (fields used by build_context). -/
structure Character where
  id : RStr
  name : RStr
  description : RStr
  personality : RStr
  system_prompt : RStr
  example_dialogues : RStr
deriving DecidableEq

/-- entities.rs Persona (fields used by build_context). -/
structure Persona where
  name : RStr
  description : RStr
deriving DecidableEq

/-- entities.rs GenerationSettings (fields used by build_context). -/
structure GenerationSettings where
  lorebook_budget : Option ℤ
  response_reserve : Option ℤ
deriving DecidableEq

/-- error.rs AppError variants arising in the embedded services. -/
inductive AppError
  | notFound
  | validation
deriving DecidableEq

/-- services/mod.rs ContextResult. -/
structure ContextResult where
  system_prompt : RStr
  messages : List Message
  character_name : RStr
  persona_name : RStr
  total_tokens : ℤ
deriving DecidableEq

/-- Join a list of strings with a separator (Rust slice::join). -/
def joinSep (sep : RStr) : List RStr → RStr
  | [] => []
  | [s] => s
  | s :: rest => s ++ sep ++ joinSep sep rest

/-- The lorebook budget walk of build_context: admit entries in order while
the budget is not exceeded, partitioning admitted contents into the
before_system and after_system lists; the first entry that would exceed the
budget stops the walk. -/
def loreWalk (budget : ℤ) : List LorebookEntry → ℤ → List RStr × List RStr
  | [], _ => ([], [])
  | e :: es, used =>
    let tokens := estimate_tokens e.content
    if used + tokens > budget then ([], [])
    else
      let rest := loreWalk budget es (used + tokens)
      if e.insertion_position == "before_system".toList then
        (e.content :: rest.1, rest.2)
      else
        (rest.1, e.content :: rest.2)

/-- The history selection loop of build_context: walk newest-to-oldest,
keeping whole messages while they fit, and return the kept messages together
with the final accumulated token count. -/
def selectHistory (available : ℤ) : List Message → ℤ → List Message × ℤ
  | [], used => ([], used)
  | m :: ms, used =>
    if used + m.token_count > available then ([], used)
    else
      let rest := selectHistory available ms (used + m.token_count)
      (m :: rest.1, rest.2)

/-- services/mod.rs MemoryService::build_context.  The database loads become
explicit arguments: the lorebooks table, the conversation's attached lorebook
ids, the conversation's active chain in chronological order
(find_active_branch), its linked characters in join order, the resolved
persona (explicit or default), and the generation settings. -/
def build_context (lbs : List Lorebook) (convLbIds : List RStr)
    (messages : List Message) (characters : List Character)
    (persona : Option Persona) (settings : GenerationSettings)
    (max_tokens : ℤ) : Except AppError ContextResult :=
  match characters.head? with
  | none => .error .notFound
  | some character =>
    let lorebook_budget := settings.lorebook_budget.getD 500
    let response_reserve := settings.response_reserve.getD 512
    -- 1. Char identity
    let identity : RStr :=
      if ¬ character.system_prompt.isEmpty then character.system_prompt
      else
        let p := "You are ".toList ++ character.name ++ ".".toList
        let p := if ¬ character.description.isEmpty then
          p ++ "\n".toList ++ character.description else p
        if ¬ character.personality.isEmpty then
          p ++ "\nPersonality: ".toList ++ character.personality else p
    -- 2. Persona
    let system_parts := [identity] ++
      (match persona with
       | some p => if ¬ p.description.isEmpty then
           ["User persona: ".toList ++ p.description] else []
       | none => [])
    -- 3. Lorebook
    let recent_text := joinSep " ".toList ((messages.reverse.take 10).map (·.content))
    let lore_entries := find_matching_entries lbs convLbIds recent_text
    let beforeAfter := loreWalk lorebook_budget lore_entries 0
    -- Assemble final system prompt
    let final_parts := beforeAfter.1 ++ system_parts ++ beforeAfter.2 ++
      (if ¬ character.example_dialogues.isEmpty then
        ["Examples:\n".toList ++ character.example_dialogues] else [])
    let final_system := joinSep "\n\n".toList final_parts
    let sys_tokens := estimate_tokens final_system
    -- 4. Conversation history
    let available := max_tokens - sys_tokens - response_reserve
    let selected := selectHistory available messages.reverse 0
    let history := selected.1.reverse
    .ok {
      system_prompt := final_system
      messages := history
      character_name := character.name
      persona_name := (persona.map (·.name)).getD "User".toList
      total_tokens := sys_tokens + selected.2
    }

-- ============================================================
-- services/memory.rs: contradiction detection and per-fact outcome
-- ============================================================

/-- memory.rs MemoryEntry (fields used by the per-fact decision). -/
structure MemoryEntry where
  id : RStr
  content : RStr
deriving DecidableEq

/-- Substring before the first colon (Rust split(':').next(), the whole
string when there is no colon). -/
def beforeFirstColon (s : RStr) : RStr := s.takeWhile (· ≠ ':')

/-- Substring after the first colon (Rust split(':').skip(1) re-joined with
":", which reconstructs the remainder exactly; empty when there is no
colon). -/
def afterFirstColon : RStr → RStr
  | [] => []
  | c :: cs => if c = ':' then cs else afterFirstColon cs

/-- Both strings contain some pattern of the group and their contents differ
(the per-group test of is_contradicting_fact). -/
def groupContradicts (pats : List RStr) (ce cn : RStr) : Bool :=
  (pats.any (fun p => containsStr ce p)) && (pats.any (fun p => containsStr cn p)) &&
    ce ≠ cn

/-- memory.rs is_contradicting_fact. -/
def is_contradicting_fact (existing new : RStr) : Bool :=
  let existing_cat := beforeFirstColon existing
  let new_cat := beforeFirstColon new
  if existing_cat ≠ new_cat then false
  else
    let existing_content := lowerStr (afterFirstColon existing)
    let new_content := lowerStr (afterFirstColon new)
    let existing_lower := lowerStr existing
    let new_lower := lowerStr new
    match (if ¬ existing_content.isEmpty then some (existing_content, new_content)
           else if startsWithStr existing_lower "user".toList &&
                   startsWithStr new_lower "user".toList then
             some (existing_lower, new_lower)
           else none) with
    | none => false
    | some (ce, cn) =>
      groupContradicts ["years old".toList, "year old".toList, "aged".toList,
        "is age".toList] ce cn ||
      (containsStr ce "name is".toList && containsStr cn "name is".toList && ce ≠ cn) ||
      groupContradicts ["is from".toList, "lives in".toList, "located in".toList,
        "from the".toList] ce cn ||
      groupContradicts ["works as".toList, "job is".toList, "profession is".toList,
        "works at".toList, "employed as".toList] ce cn ||
      groupContradicts ["married".toList, "single".toList, "dating".toList,
        "in a relationship".toList, "engaged".toList] ce cn

/-- What MemoryService::process_message does with one extracted fact. -/
inductive FactOutcome
  | skippedShort
  | skippedDuplicate
  | updated (memoryId : RStr)
  | inserted
deriving DecidableEq

/-- The inner loop of process_message over the character's existing memories
(in the importance/recency order returned by get_for_character): substring
duplicates are skipped, contradictions update the matching memory in place,
and otherwise the fact is inserted as a new row. -/
def factLoop (new_lower : RStr) : List MemoryEntry → FactOutcome
  | [] => .inserted
  | m :: ms =>
    let existing_lower := lowerStr m.content
    if containsStr existing_lower new_lower || containsStr new_lower existing_lower then
      .skippedDuplicate
    else if is_contradicting_fact existing_lower new_lower then
      .updated m.id
    else factLoop new_lower ms

/-- memory.rs MemoryService::process_message, restricted to the decision made
for a single extracted fact against the character's existing memories. -/
def processFact (existing : List MemoryEntry) (fact : RStr) : FactOutcome :=
  let fact_trimmed := trimStr fact
  if fact_trimmed.isEmpty ∨ byteLen fact_trimmed < 5 then .skippedShort
  else factLoop (lowerStr fact_trimmed) existing

-- ============================================================
-- state.rs / repositories.rs / workers/queue_worker.rs: persisted store,
-- branch mutation and the generation slot
-- ============================================================

/-- entities.rs QueueStatus. -/
inductive QueueStatus
  | pending
  | processing
  | completed
  | failed
  | cancelled
deriving DecidableEq

/-- entities.rs QueueTask (fields used by the verified operations). -/
structure QueueTask where
  id : RStr
  conversation_id : RStr
  parent_message_id : Option RStr
  status : QueueStatus
deriving DecidableEq

/-- The persisted state the verified operations touch: the messages table
(in row order), each conversation's active_message_id column (as a map from
conversation id), and the message_queue table. -/
structure Store where
  messages : List Message
  active_message : RStr → Option RStr
  tasks : List QueueTask

/-- repositories.rs MessageRepo::find_by_id (first row with the id). -/
def MessageRepo.find_by_id (st : Store) (id : RStr) : Option Message :=
  st.messages.find? (fun m => m.id = id)

/-- One insertion step of an ascending-by-branch_index stable sort. -/
def insertByBranchIdx (m : Message) : List Message → List Message
  | [] => [m]
  | x :: xs =>
    if m.branch_index < x.branch_index then m :: x :: xs else x :: insertByBranchIdx m xs

/-- Stable ascending sort by branch_index (ORDER BY branch_index ASC). -/
def sortByBranchIdx (ms : List Message) : List Message :=
  ms.foldr insertByBranchIdx []

/-- repositories.rs MessageRepo::find_siblings, applied to an already fetched
message: all children of its parent (or all roots of its conversation)
ordered by branch_index. -/
def MessageRepo.find_siblings_of (st : Store) (message : Message) : List Message :=
  match message.parent_id with
  | some pid =>
    sortByBranchIdx (st.messages.filter (fun x => x.parent_id = some pid))
  | none =>
    sortByBranchIdx (st.messages.filter (fun x =>
      x.conversation_id = message.conversation_id ∧ x.parent_id = none))

/-- UPDATE messages SET is_active_branch = active WHERE id = id. -/
def MessageRepo.set_branch_active (st : Store) (id : RStr) (active : Bool) : Store :=
  { st with messages := st.messages.map (fun m =>
      if m.id = id then { m with is_active_branch := active } else m) }

/-- One expansion step of the recursive descendants CTE. -/
def descendantStep (msgs : List Message) (ids : List RStr) : List RStr :=
  ids ++ (msgs.filter (fun m =>
    m.id ∉ ids ∧ m.parent_id ∈ ids.map some)).map (·.id)

/-- Ids reached by the recursive descendants CTE rooted at root (self
included); iterating once per table row reaches the fixpoint on acyclic
data. -/
def descendantIds (msgs : List Message) (root : RStr) : List RStr :=
  (descendantStep msgs)^[msgs.length] [root]

/-- repositories.rs MessageRepo::deactivate_subtree. -/
def MessageRepo.deactivate_subtree (st : Store) (root : RStr) : Store :=
  { st with messages := st.messages.map (fun m =>
      if m.id ∈ descendantIds st.messages root then
        { m with is_active_branch := false } else m) }

/-- Ids reached by the recursive ancestors CTE seeded at a message id,
following parent links (fuelled by the table size). -/
def ancestorChain (msgs : List Message) : Nat → Option RStr → List RStr
  | 0, _ => []
  | _, none => []
  | n + 1, some i =>
    i :: (match msgs.find? (fun m => m.id = i) with
          | some m => ancestorChain msgs n m.parent_id
          | none => [])

/-- repositories.rs MessageRepo::activate_path_to_root. -/
def MessageRepo.activate_path_to_root (st : Store) (message_id : RStr) : Store :=
  { st with messages := st.messages.map (fun m =>
      if m.id ∈ ancestorChain st.messages (st.messages.length + 1) (some message_id) then
        { m with is_active_branch := true } else m) }

/-- repositories.rs MessageRepo::find_children (ORDER BY branch_index ASC). -/
def MessageRepo.find_children (st : Store) (parent_id : RStr) : List Message :=
  sortByBranchIdx (st.messages.filter (fun m => m.parent_id = some parent_id))

/-- repositories.rs MessageRepo::activate_deepest_path: walk down preferring
the already-active child, else the first child, activating along the way.
The Rust loop has no bound; the fuel only matters on cyclic data, which the
store never holds. -/
def MessageRepo.activate_deepest_path (st : Store) : Nat → RStr → Store
  | 0, _ => st
  | n + 1, current =>
    let children := MessageRepo.find_children st current
    match (children.find? (fun c => c.is_active_branch)).orElse (fun _ => children.head?) with
    | some child =>
      MessageRepo.activate_deepest_path
        (MessageRepo.set_branch_active st child.id true) n child.id
    | none => st

/-- repositories.rs MessageRepo::find_active_child (LIMIT 1 without ORDER BY:
the first matching row in table order). -/
def MessageRepo.find_active_child (st : Store) (parent_id : RStr) : Option Message :=
  (st.messages.filter (fun m => m.parent_id = some parent_id ∧ m.is_active_branch)).head?

/-- The loop body of repositories.rs MessageRepo::find_deepest_active. -/
def findDeepestActiveGo (st : Store) : Nat → Message → Message
  | 0, cur => cur
  | n + 1, cur =>
    match MessageRepo.find_active_child st cur.id with
    | some child => findDeepestActiveGo st n child
    | none => cur

/-- repositories.rs MessageRepo::find_deepest_active. -/
def MessageRepo.find_deepest_active (st : Store) (start_id : RStr) : Option Message :=
  (MessageRepo.find_by_id st start_id).map
    (findDeepestActiveGo st (st.messages.length + 1))

/-- repositories.rs ConversationRepo::update_active_message. -/
def ConversationRepo.update_active_message (st : Store) (id message_id : RStr) : Store :=
  { st with active_message := fun c =>
      if c = id then some message_id else st.active_message c }

/-- repositories.rs MessageRepo::switch_to_branch (none when the target id is
not found, mirroring the NotFound error). -/
def MessageRepo.switch_to_branch (st : Store) (message_id : RStr) : Option Store :=
  match MessageRepo.find_by_id st message_id with
  | none => none
  | some target =>
    let siblings := MessageRepo.find_siblings_of st target
    let st1 := siblings.foldl (fun acc s =>
      if s.is_active_branch ∧ s.id ≠ message_id then
        MessageRepo.deactivate_subtree acc s.id else acc) st
    let st2 := MessageRepo.set_branch_active st1 message_id true
    let st3 := MessageRepo.activate_path_to_root st2 message_id
    let st4 := MessageRepo.activate_deepest_path st3 (st3.messages.length + 1) message_id
    match MessageRepo.find_deepest_active st4 message_id with
    | none => none
    | some deepest =>
      some (ConversationRepo.update_active_message st4 target.conversation_id deepest.id)

/-- repositories.rs MessageRepo::delete.  The SQL deletes the single row; the
schema's parent_id foreign key cascades to descendants per the data-model
lifecycle rules (the migration SQL files are not under src), so the
transitive subtree is removed. -/
def MessageRepo.deleteMsg (st : Store) (id : RStr) : Store :=
  { st with messages := st.messages.filter (fun m =>
      m.id ∉ descendantIds st.messages id) }

/-- services/mod.rs MessageService::delete (none when the id is not found,
mirroring the NotFound error). -/
def MessageService.delete (st : Store) (message_id : RStr) : Option Store :=
  match MessageRepo.find_by_id st message_id with
  | none => none
  | some message =>
    if message.is_active_branch then
      match message.parent_id with
      | some parent_id =>
        let siblings := MessageRepo.find_siblings_of st message
        match siblings.find? (fun s => s.id ≠ message_id) with
        | some alt =>
          (MessageRepo.switch_to_branch st alt.id).map
            (fun st1 => MessageRepo.deleteMsg st1 message_id)
        | none =>
          some (MessageRepo.deleteMsg
            (ConversationRepo.update_active_message st message.conversation_id parent_id)
            message_id)
      | none => some (MessageRepo.deleteMsg st message_id)
    else some (MessageRepo.deleteMsg st message_id)

/-- UPDATE message_queue SET status = ? WHERE id = ? (the timestamp columns
written on the processing/terminal transitions are not part of the verified
properties). -/
def QueueRepo.update_status (st : Store) (task_id : RStr) (status : QueueStatus) : Store :=
  { st with tasks := st.tasks.map (fun t =>
      if t.id = task_id then { t with status := status } else t) }

/-- state.rs GenerationState (the cancellation token is an opaque handle and
started_at is wall-clock time; neither takes part in the verified
properties). -/
structure GenerationState where
  message_id : RStr
  conversation_id : RStr
deriving DecidableEq

/-- state.rs AppState::try_start_generation: compare-and-set on the shared
generation slot under its write lock; returns the fresh cancellation token
(modelled by Unit) paired with the slot's new contents. -/
def AppState.try_start_generation (generating : Option GenerationState)
    (message_id conversation_id : RStr) : Option Unit × Option GenerationState :=
  match generating with
  | some s => (none, some s)
  | none => (some (), some ⟨message_id, conversation_id⟩)

/-- workers/queue_worker.rs process_queue, slot-occupied branch: delete the
placeholder, reset the conversation's active message to the task's parent
when the task has one, and revert the task to pending. -/
def slotBusyCleanup (st : Store) (task : QueueTask) (placeholderId : RStr) : Store :=
  let st1 := MessageRepo.deleteMsg st placeholderId
  let st2 := match task.parent_message_id with
    | some parent_id =>
      ConversationRepo.update_active_message st1 task.conversation_id parent_id
    | none => st1
  QueueRepo.update_status st2 task.id .pending

/-- workers/queue_worker.rs process_queue, the slot reservation step: attempt
the compare-and-set; on failure run the cleanup, on success leave the store
untouched and proceed with the returned token. -/
def processQueueReserve (generating : Option GenerationState) (st : Store)
    (task : QueueTask) (placeholderId : RStr) : Option GenerationState × Store :=
  let res := AppState.try_start_generation generating placeholderId task.conversation_id
  match res.1 with
  | none => (res.2, slotBusyCleanup st task placeholderId)
  | some _ => (res.2, st)

-- ============================================================
-- workers/queue_worker.rs: TokenFilter
-- ============================================================

/-- workers/queue_worker.rs TokenFilter. -/
structure TokenFilter where
  buffer : RStr
  in_thinking_block : Bool
  in_response_block : Bool
  character_name : RStr
deriving DecidableEq

/-- TokenFilter::new. -/
def TokenFilter.new (character_name : RStr) : TokenFilter :=
  ⟨[], false, false, character_name⟩

/-- Length of the longest nonempty proper prefix of tag (of length at most n)
that is a suffix of buf; 0 when there is none.  This is the partial-tag scan
written in the source as a descending loop over prefix lengths. -/
def keepLenAux (buf tag : RStr) : Nat → Nat
  | 0 => 0
  | i + 1 => if endsWithStr buf (tag.take (i + 1)) then i + 1 else keepLenAux buf tag i

/-- The keep_len computed inside TokenFilter::process: the longest proper
prefix of the tag that ends the buffer. -/
def keepLen (buf tag : RStr) : Nat := keepLenAux buf tag (tag.length - 1)

/-- TokenFilter::has_partial_tag. -/
def hasPartialTag (buf : RStr) : Bool :=
  keepLen buf "<thinking>".toList > 0 || keepLen buf "<RESPONSE>".toList > 0

/-- The leakage markers checked by TokenFilter::process. -/
def leakMarkers (name : RStr) : List RStr :=
  ["Scenario:".toList, "System:".toList,
   "You are ".toList ++ name, name ++ "\nScenario:".toList]

/-- The system-prompt leakage handling of TokenFilter::process: when the
trimmed buffer starts with a leak marker, strip everything up to and
including the first occurrence of "{name}: " (else "{name}: *") and switch
into the response block; when neither occurs, keep buffering. -/
def applyLeakStrip (f : TokenFilter) : TokenFilter :=
  match (leakMarkers f.character_name).find?
      (fun m => startsWithStr (trimStart f.buffer) m) with
  | none => f
  | some _ =>
    let char_dialogue := f.character_name ++ ": ".toList
    let char_action := f.character_name ++ ": *".toList
    match strFind char_dialogue f.buffer with
    | some pos =>
      { f with buffer := f.buffer.drop (pos + char_dialogue.length),
               in_response_block := true }
    | none =>
      match strFind char_action f.buffer with
      | some pos =>
        { f with buffer := f.buffer.drop (pos + char_action.length),
                 in_response_block := true }
      | none => f

/-- TokenFilter::handle_thinking_start. -/
def handleThinkingStart (f : TokenFilter) (start_idx : Nat) : TokenFilter :=
  { f with buffer := f.buffer.drop (start_idx + 10), in_thinking_block := true }

/-- TokenFilter::handle_response_start. -/
def handleResponseStart (f : TokenFilter) (start_idx : Nat) : TokenFilter :=
  { f with buffer := f.buffer.drop (start_idx + 10), in_response_block := true }

/-- The loop of TokenFilter::process.  The fuel is the source's own iteration
cap: 1000 normal iterations are allowed, and the iteration after them
flushes the whole buffer (the loop_count > 1000 safety branch). -/
def processGo : Nat → TokenFilter → List RStr → List RStr × TokenFilter
  | 0, f, output => (output ++ [f.buffer], { f with buffer := [] })
  | fuel + 1, f0, output =>
    if f0.buffer.isEmpty then (output, f0)
    else
      let f := if ¬ f0.in_thinking_block ∧ ¬ f0.in_response_block ∧
                  f0.buffer.length > 20 then applyLeakStrip f0 else f0
      if f.in_thinking_block then
        match strFind "</thinking>".toList f.buffer with
        | some end_idx =>
          processGo fuel
            { f with buffer := f.buffer.drop (end_idx + 11), in_thinking_block := false }
            output
        | none =>
          let keep := keepLen f.buffer "</thinking>".toList
          if f.buffer.length > keep then
            (output, { f with buffer := f.buffer.drop (f.buffer.length - keep) })
          else (output, f)
      else if f.in_response_block then
        match strFind "</RESPONSE>".toList f.buffer with
        | some end_idx =>
          let content := f.buffer.take end_idx
          processGo fuel
            { f with buffer := f.buffer.drop (end_idx + 11), in_response_block := false }
            (if ¬ content.isEmpty then output ++ [content] else output)
        | none =>
          let keep := keepLen f.buffer "</RESPONSE>".toList
          let emit_len := f.buffer.length - keep
          if emit_len > 0 then
            (output ++ [f.buffer.take emit_len], { f with buffer := f.buffer.drop emit_len })
          else (output, f)
      else
        match strFind "<thinking>".toList f.buffer,
              strFind "<RESPONSE>".toList f.buffer with
        | some t_idx, some r_idx =>
          if t_idx < r_idx then processGo fuel (handleThinkingStart f t_idx) output
          else processGo fuel (handleResponseStart f r_idx) output
        | some t_idx, none => processGo fuel (handleThinkingStart f t_idx) output
        | none, some r_idx => processGo fuel (handleResponseStart f r_idx) output
        | none, none =>
          if hasPartialTag f.buffer then (output, f)
          else if f.buffer.length > 1000 then
            processGo fuel { f with buffer := [], in_response_block := true }
              (output ++ [f.buffer])
          else (output, f)

/-- TokenFilter::process: append the token to the buffer and run the loop. -/
def TokenFilter.process (f : TokenFilter) (token : RStr) : List RStr × TokenFilter :=
  processGo 1000 { f with buffer := f.buffer ++ token } []

/-- TokenFilter::flush. -/
def TokenFilter.flush (f : TokenFilter) : Option RStr × TokenFilter :=
  if f.in_thinking_block then (none, f)
  else if f.in_response_block then
    (if f.buffer.isEmpty then none else some f.buffer, { f with buffer := [] })
  else if ¬ f.buffer.isEmpty then (some f.buffer, { f with buffer := [] })
  else (none, f)

-- ============================================================
-- Derived notions used by the statements
-- ============================================================

/-- Sum of the token_count columns of a message list (the history_tokens
accumulator of build_context). -/
def sumTokens (ms : List Message) : ℤ := (ms.map (·.token_count)).sum

/-- The (id, parent_id) projection of the messages table: the branch
mutations of MessageRepo only flip is_active_branch, so this projection is
invariant under them. -/
def parentPairs (msgs : List Message) : List (RStr × Option RStr) :=
  msgs.map (fun m => (m.id, m.parent_id))

/-- y is reachable from x by walking child edges of the (id, parent_id)
projection: the shape of the walks done by activate_deepest_path and
find_deepest_active. -/
inductive Desc (pairs : List (RStr × Option RStr)) : RStr → RStr → Prop
  | refl (x : RStr) : Desc pairs x x
  | step (x c y : RStr) : (c, some x) ∈ pairs → Desc pairs c y → Desc pairs x y

-- ============================================================
-- Theorems
-- ============================================================

/-- Ceiling of n / 70 over ℚ as an integer division. -/
theorem ceil_div70 (n : ℕ) : ⌈(n : ℚ) / 70⌉ = ((n : ℤ) + 69) / 70 := by
  have hfloor : ⌊((-(n : ℤ) : ℤ) : ℚ) / ((70 : ℕ) : ℚ)⌋ = (-(n : ℤ)) / ((70 : ℕ) : ℤ) :=
    Rat.floor_intCast_div_natCast (-(n : ℤ)) 70
  have hneg : ⌈(n : ℚ) / 70⌉ = -⌊-((n : ℚ) / 70)⌋ := by
    have := Int.floor_neg (α := ℚ) (a := (n : ℚ) / 70)
    omega
  rw [hneg]
  have harg : -((n : ℚ) / 70) = ((-(n : ℤ) : ℤ) : ℚ) / ((70 : ℕ) : ℚ) := by
    push_cast; ring
  rw [harg, hfloor]
  omega

/-- C5 (counterexample).  The claim asserts the minimum-1 formula for every
input including the empty string, but estimate_tokens returns 0 on the empty
string while the formula gives max 1 ceil(0 / 3.5 + 0 * 0.7) = 1. -/
theorem estimate_tokens_empty_counterexample :
    estimate_tokens [] = 0 ∧
    max (1 : ℤ) ⌈(asciiCount ([] : RStr) : ℚ) / 3.5 + (nonAsciiCount ([] : RStr) : ℚ) * 0.7⌉ = 1 ∧
    estimate_tokens [] ≠
      max 1 ⌈(asciiCount ([] : RStr) : ℚ) / 3.5 + (nonAsciiCount ([] : RStr) : ℚ) * 0.7⌉ := by
  have ha : asciiCount ([] : RStr) = 0 := rfl
  have hb : nonAsciiCount ([] : RStr) = 0 := rfl
  have hz : ((asciiCount ([] : RStr) : ℚ) / 3.5 + (nonAsciiCount ([] : RStr) : ℚ) * 0.7) = 0 := by
    rw [ha, hb]; norm_num
  refine ⟨rfl, ?_, ?_⟩ <;> rw [hz] <;> simp [estimate_tokens]

/-- C5 (amended).  estimate_tokens returns 0 on the empty string; on every
non-empty string it returns ceil(ascii / 3.5 + non_ascii * 0.7) with a
minimum of 1. -/
theorem estimate_tokens_amended (text : RStr) (h : ¬ text.isEmpty) :
    estimate_tokens [] = 0 ∧
    estimate_tokens text =
      max 1 ⌈(asciiCount text : ℚ) / 3.5 + (nonAsciiCount text : ℚ) * 0.7⌉ := by
  refine ⟨rfl, ?_⟩
  rw [estimate_tokens, if_neg h]
  have hq : (asciiCount text : ℚ) / 3.5 + (nonAsciiCount text : ℚ) * 0.7 =
      ((20 * asciiCount text + 49 * nonAsciiCount text : ℕ) : ℚ) / 70 := by
    push_cast; ring
  rw [hq, ceil_div70]
  push_cast
  ring_nf

/-- C5 witness: the amended statement evaluated on the two-character ASCII
string "ab", whose estimate is max 1 ceil(2 / 3.5) = 1. -/
theorem estimate_tokens_amended_witness :
    estimate_tokens ['a', 'b'] = 1 ∧ estimate_tokens [] = 0 := by
  have h := estimate_tokens_amended ['a', 'b'] (by decide)
  refine ⟨?_, h.1⟩
  rw [h.2]
  have ha : asciiCount ['a', 'b'] = 2 := by decide
  have hb : nonAsciiCount ['a', 'b'] = 0 := by decide
  rw [ha, hb]
  have hq : ((2 : ℕ) : ℚ) / 3.5 + ((0 : ℕ) : ℚ) * 0.7 = ((4 : ℕ) : ℚ) / 7 := by norm_num
  norm_num [hq]
  rw [Int.ceil_eq_iff]
  norm_num

theorem ratSqrt_zero : Rat.sqrt 0 = 0 := by
  simpa using Rat.sqrt_eq 0

theorem mem_insertBySimDesc {x y : RStr × ℚ} {l : List (RStr × ℚ)} :
    y ∈ insertBySimDesc x l ↔ y = x ∨ y ∈ l := by
  induction l with
  | nil => simp [insertBySimDesc]
  | cons z zs ih =>
    by_cases h : z.2 < x.2 <;> simp [insertBySimDesc, h, ih] <;> tauto

theorem mem_sortBySimDesc {y : RStr × ℚ} {l : List (RStr × ℚ)} :
    y ∈ sortBySimDesc l ↔ y ∈ l := by
  induction l with
  | nil => simp [sortBySimDesc]
  | cons z zs ih =>
    simp only [sortBySimDesc, List.foldr_cons, mem_insertBySimDesc, List.mem_cons]
    rw [← sortBySimDesc, ih]

/-- C10 (confirmed).  cosine_similarity returns exactly 0 on mismatched
lengths, on an empty first vector, and when either magnitude vanishes; hence
find_similar scores a dimension-mismatched stored embedding as 0, and any
positive min_similarity filters it out of the result (every returned pair
has similarity at least min_similarity, hence positive). -/
theorem cosine_similarity_zero_confirmed
    (a b : List ℚ) (rows : List EmbeddingRow) (query : List ℚ) (limit : ℕ)
    (min_similarity : ℚ) (r : EmbeddingRow)
    (hab : a.length ≠ b.length ∨ a = [] ∨ magSq a = 0 ∨ magSq b = 0)
    (hr : r ∈ rows) (hdim : r.vec.length ≠ query.length) (hpos : 0 < min_similarity) :
    cosine_similarity a b = 0 ∧
    cosine_similarity query r.vec = 0 ∧
    ∀ p ∈ find_similar rows query limit min_similarity, min_similarity ≤ p.2 ∧ 0 < p.2 := by
  have hzero : ∀ u v : List ℚ,
      u.length ≠ v.length ∨ u = [] ∨ magSq u = 0 ∨ magSq v = 0 →
      cosine_similarity u v = 0 := by
    intro u v huv
    rw [cosine_similarity]
    rcases huv with h | h | h | h
    · rw [if_pos (Or.inl h)]
    · rw [if_pos (Or.inr (by simp [h]))]
    · by_cases hg : u.length ≠ v.length ∨ u.isEmpty
      · rw [if_pos hg]
      · rw [if_neg hg, if_pos (Or.inl (by rw [h, ratSqrt_zero]))]
    · by_cases hg : u.length ≠ v.length ∨ u.isEmpty
      · rw [if_pos hg]
      · rw [if_neg hg, if_pos (Or.inr (by rw [h, ratSqrt_zero]))]
  refine ⟨hzero a b hab, hzero query r.vec (Or.inl (Ne.symm hdim)), ?_⟩
  intro p hp
  have hp1 : p ∈ sortBySimDesc ((rows.map
      (fun r => (r.entity_id, cosine_similarity query r.vec))).filter
      (fun p => min_similarity ≤ p.2)) := by
    simpa [find_similar] using List.mem_of_mem_take hp
  have hp2 := mem_sortBySimDesc.mp hp1
  have hp3 := List.of_mem_filter hp2
  have hle : min_similarity ≤ p.2 := by simpa using hp3
  exact ⟨hle, lt_of_lt_of_le hpos hle⟩

/-- C10 witness: a 1-vector against a 2-vector gives exactly 0, both directly
and as the score of a stored embedding of mismatched dimension. -/
theorem cosine_similarity_zero_witness :
    cosine_similarity [(1 : ℚ)] [(1 : ℚ), 2] = 0 ∧
    cosine_similarity [(1 : ℚ)] (⟨"e1".toList, [(1 : ℚ), 2]⟩ : EmbeddingRow).vec = 0 := by
  have h := cosine_similarity_zero_confirmed [(1 : ℚ)] [(1 : ℚ), 2]
    [⟨"e1".toList, [(1 : ℚ), 2]⟩] [(1 : ℚ)] 5 1 ⟨"e1".toList, [(1 : ℚ), 2]⟩
    (Or.inl (by decide)) (by simp) (by decide) one_pos
  exact ⟨h.1, h.2.1⟩

theorem byteLen_append (xs ys : RStr) :
    byteLen (xs ++ ys) = byteLen xs + byteLen ys := by
  simp [byteLen]

theorem byteLen_cons (c : Char) (xs : RStr) :
    byteLen (c :: xs) = c.utf8Size + byteLen xs := by
  simp [byteLen]

theorem byteLen_replicate (n : ℕ) (c : Char) :
    byteLen (List.replicate n c) = n * c.utf8Size := by
  induction n with
  | zero => simp [byteLen]
  | succ n ih => rw [List.replicate_succ, byteLen_cons, ih]; ring

theorem trimStr_eq_nil_iff (s : RStr) :
    trimStr s = [] ↔ ∀ c ∈ s, rustIsWhitespace c = true := by
  have hdrop : ∀ (l : RStr),
      (∀ c ∈ l.dropWhile rustIsWhitespace, rustIsWhitespace c = true) ↔
        ∀ c ∈ l, rustIsWhitespace c = true := by
    intro l
    constructor
    · intro h c hc
      rcases List.mem_append.mp
          (by rw [List.takeWhile_append_dropWhile]; exact hc :
            c ∈ l.takeWhile rustIsWhitespace ++ l.dropWhile rustIsWhitespace) with h1 | h2
      · exact List.mem_takeWhile_imp h1
      · exact h c h2
    · intro h c hc
      exact h c ((List.dropWhile_suffix _).sublist.mem hc)
  rw [trimStr, trimEnd, trimStart]
  rw [List.reverse_eq_nil_iff, List.dropWhile_eq_nil_iff]
  constructor
  · intro h c hc
    exact (hdrop s).mp (fun d hd => h d (List.mem_reverse.mpr hd)) c hc
  · intro h c hc
    exact (hdrop s).mpr h c (List.mem_reverse.mp hc)

theorem takeBytes_sound (s : RStr) :
    ∀ (n : ℕ) (t : RStr), takeBytes s n = some t → byteLen t = n ∧ t <+: s := by
  induction s with
  | nil =>
    intro n t h
    match n with
    | 0 => cases h; exact ⟨rfl, List.prefix_refl []⟩
    | _ + 1 => cases h
  | cons c cs ih =>
    intro n t h
    match n with
    | 0 => cases h; exact ⟨rfl, List.nil_prefix⟩
    | n + 1 =>
      rw [takeBytes] at h
      by_cases hsz : c.utf8Size ≤ n + 1
      · rw [if_pos hsz] at h
        rcases Option.map_eq_some'.mp h with ⟨t', ht', rfl⟩
        rcases ih (n + 1 - c.utf8Size) t' ht' with ⟨hlen, hpre⟩
        rcases hpre with ⟨u, hu⟩
        refine ⟨?_, ⟨u, by rw [List.cons_append, hu]⟩⟩
        rw [byteLen_cons, hlen]; omega
      · rw [if_neg hsz] at h; cases h

theorem takeBytes_replicate_a (k : ℕ) (rest : RStr) (m : ℕ) :
    takeBytes (List.replicate k 'a' ++ rest) (k + m) =
      (takeBytes rest m).map (List.replicate k 'a' ++ ·) := by
  induction k with
  | zero =>
    rw [List.replicate_zero, List.nil_append, Nat.zero_add]
    cases h : takeBytes rest m <;> simp [h]
  | succ k ih =>
    have hidx : k + 1 + m = (k + m) + 1 := by omega
    rw [List.replicate_succ, List.cons_append, hidx, takeBytes]
    have hsz : 'a'.utf8Size ≤ k + m + 1 := by
      have : 'a'.utf8Size = 1 := rfl
      omega
    rw [if_pos hsz]
    have harg : k + m + 1 - 'a'.utf8Size = k + m := by
      have : 'a'.utf8Size = 1 := rfl
      omega
    rw [harg, ih]
    cases takeBytes rest m <;> simp [List.replicate_succ]

/-- C9 (counterexample).  On 7999 ASCII characters followed by a two-byte
character the input is 8001 bytes long, byte 8000 falls inside the final
character, and the byte slice text[..8000] taken by
EmbeddingService::generate panics: the truncation is not total. -/
theorem embedding_generate_panic_counterexample :
    EmbeddingService.generate (List.replicate 7999 'a' ++ ['é']) = .panics ∧
    byteLen (List.replicate 7999 'a' ++ ['é']) = 8001 := by
  have hbl : byteLen (List.replicate 7999 'a' ++ ['é']) = 8001 := by
    rw [byteLen_append, byteLen_replicate]
    have h1 : 'a'.utf8Size = 1 := rfl
    have h2 : byteLen ['é'] = 2 := rfl
    omega
  have htrim : ¬ (trimStr (List.replicate 7999 'a' ++ ['é'])).isEmpty = true := by
    intro h
    have hnil := List.isEmpty_iff.mp h
    have hws := (trimStr_eq_nil_iff _).mp hnil 'a'
      (List.mem_append.mpr (Or.inl (List.mem_replicate.mpr ⟨by omega, rfl⟩)))
    exact absurd hws (by decide)
  have htb : takeBytes (List.replicate 7999 'a' ++ ['é']) 8000 = none := by
    have h8 : (8000 : ℕ) = 7999 + 1 := by norm_num
    rw [h8, takeBytes_replicate_a]
    have h1 : takeBytes ['é'] 1 = none := by decide
    rw [h1]; rfl
  refine ⟨?_, hbl⟩
  rw [EmbeddingService.generate, if_neg htrim, if_pos (by rw [hbl]; norm_num), htb]

/-- C9 (amended).  generate rejects inputs that trim to empty as Validation
and forwards short inputs unchanged; an input longer than 8000 bytes is
truncated to its unique 8000-byte prefix when byte 8000 is a character
boundary, and the byte slice panics when byte 8000 falls inside a multi-byte
character. -/
theorem embedding_generate_amended (text : RStr) :
    ((trimStr text).isEmpty = true → EmbeddingService.generate text = .validationError) ∧
    (¬ (trimStr text).isEmpty = true → byteLen text ≤ 8000 →
      EmbeddingService.generate text = .sends text) ∧
    (∀ t, ¬ (trimStr text).isEmpty = true → 8000 < byteLen text →
      takeBytes text 8000 = some t →
      EmbeddingService.generate text = .sends t ∧ byteLen t = 8000 ∧ t <+: text) ∧
    (¬ (trimStr text).isEmpty = true → 8000 < byteLen text →
      takeBytes text 8000 = none → EmbeddingService.generate text = .panics) := by
  refine ⟨?_, ?_, ?_, ?_⟩
  · intro h
    rw [EmbeddingService.generate, if_pos h]
  · intro h hlen
    rw [EmbeddingService.generate, if_neg h, if_neg (by omega)]
  · intro t h hlen ht
    rcases takeBytes_sound text 8000 t ht with ⟨h1, h2⟩
    refine ⟨?_, h1, h2⟩
    rw [EmbeddingService.generate, if_neg h, if_pos (by omega), ht]
  · intro h hlen ht
    rw [EmbeddingService.generate, if_neg h, if_pos (by omega), ht]

/-- C9 witness: the amended statement evaluated on the empty input (rejected
as Validation) and on the short input "hi" (forwarded unchanged). -/
theorem embedding_generate_amended_witness :
    EmbeddingService.generate [] = .validationError ∧
    EmbeddingService.generate "hi".toList = .sends "hi".toList :=
  ⟨(embedding_generate_amended []).1 (by decide),
   (embedding_generate_amended "hi".toList).2.1 (by decide) (by decide)⟩

theorem mem_insertByPriorityDesc {x y : LorebookEntry} {l : List LorebookEntry} :
    y ∈ insertByPriorityDesc x l ↔ y = x ∨ y ∈ l := by
  induction l with
  | nil => simp [insertByPriorityDesc]
  | cons z zs ih =>
    by_cases h : z.priority < x.priority <;> simp [insertByPriorityDesc, h, ih] <;> tauto

theorem mem_sortByPriorityDesc {y : LorebookEntry} {l : List LorebookEntry} :
    y ∈ sortByPriorityDesc l ↔ y ∈ l := by
  induction l with
  | nil => simp [sortByPriorityDesc]
  | cons z zs ih =>
    simp only [sortByPriorityDesc, List.foldr_cons, mem_insertByPriorityDesc, List.mem_cons]
    rw [← sortByPriorityDesc, ih]

theorem mem_dedupById_subset {e : LorebookEntry} {seen : List RStr}
    {l : List LorebookEntry} (h : e ∈ dedupById seen l) : e ∈ l := by
  induction l generalizing seen with
  | nil => simpa [dedupById] using h
  | cons x xs ih =>
    rw [dedupById] at h
    by_cases hx : x.id ∈ seen
    · rw [if_pos hx] at h
      exact List.mem_cons_of_mem x (ih h)
    · rw [if_neg hx] at h
      rcases List.mem_cons.mp h with h1 | h1
      · exact h1 ▸ List.mem_cons_self x xs
      · exact List.mem_cons_of_mem x (ih h1)

theorem dedupById_covers {e : LorebookEntry} {seen : List RStr}
    {l : List LorebookEntry} (he : e ∈ l) (hs : e.id ∉ seen) :
    ∃ e2 ∈ dedupById seen l, e2.id = e.id := by
  induction l generalizing seen with
  | nil => cases he
  | cons x xs ih =>
    rw [dedupById]
    by_cases hx : x.id ∈ seen
    · rw [if_pos hx]
      rcases List.mem_cons.mp he with rfl | h1
      · exact absurd hx hs
      · exact ih h1 hs
    · rw [if_neg hx]
      by_cases hid : e.id = x.id
      · exact ⟨x, List.mem_cons_self x _, hid.symm⟩
      · rcases List.mem_cons.mp he with rfl | h1
        · exact absurd rfl hid
        · rcases ih h1 (by rw [List.mem_cons, not_or]; exact ⟨hid, hs⟩) with ⟨e2, h2, h3⟩
          exact ⟨e2, List.mem_cons_of_mem x h2, h3⟩

/-- C6 (counterexample).  An enabled entry with match_whole_word set and the
single keyword "cat" is included for the recent text "concatenate", where the
keyword occurs only inside a longer word: find_matching_entries performs
plain substring matching and ignores the whole-word flag. -/
theorem lorebook_whole_word_counterexample :
    (⟨"e1".toList, "lb1".toList, ["cat".toList], "Cats are sacred.".toList, 0,
        true, false, true, "after_system".toList⟩ : LorebookEntry).match_whole_word = true ∧
    containsStr "concatenate".toList "cat".toList = true ∧
    find_matching_entries
        [⟨"lb1".toList, true, true, none,
          [⟨"e1".toList, "lb1".toList, ["cat".toList], "Cats are sacred.".toList, 0,
            true, false, true, "after_system".toList⟩]⟩]
        [] "concatenate".toList
      = [⟨"e1".toList, "lb1".toList, ["cat".toList], "Cats are sacred.".toList, 0,
          true, false, true, "after_system".toList⟩] := by
  decide

/-- C6 (amended).  Lorebook matching tests each keyword of each enabled
candidate entry under the case-sensitive flag only (substring containment);
the whole-word flag is ignored.  An entry of the result is always enabled
with some keyword matching, and every enabled candidate entry with a matching
keyword is represented in the result by an entry with its id. -/
theorem lorebook_matching_amended (lbs : List Lorebook) (convLbIds : List RStr)
    (text : RStr) (e : LorebookEntry) :
    (e ∈ find_matching_entries lbs convLbIds text →
      e.is_enabled = true ∧
      ∃ kw ∈ e.keywords, keywordMatches e text (lowerStr text) kw = true) ∧
    (e ∈ candidateEntries lbs convLbIds → e.is_enabled = true →
      (∃ kw ∈ e.keywords, keywordMatches e text (lowerStr text) kw = true) →
      ∃ e2 ∈ find_matching_entries lbs convLbIds text, e2.id = e.id) := by
  constructor
  · intro h
    rw [find_matching_entries] at h
    have h1 := mem_dedupById_subset (mem_sortByPriorityDesc.mp h)
    have h2 := List.of_mem_filter h1
    simp only [Bool.and_eq_true, List.any_eq_true] at h2
    exact ⟨h2.1, h2.2⟩
  · intro hpool hen ⟨kw, hkw, hmatch⟩
    rw [find_matching_entries]
    have hfil : e ∈ (candidateEntries lbs convLbIds).filter (fun e =>
        e.is_enabled && e.keywords.any (keywordMatches e text (lowerStr text))) := by
      refine List.mem_filter.mpr ⟨hpool, ?_⟩
      simp only [Bool.and_eq_true, List.any_eq_true]
      exact ⟨hen, kw, hkw, hmatch⟩
    rcases dedupById_covers hfil (List.not_mem_nil e.id) with ⟨e2, h2, h3⟩
    exact ⟨e2, mem_sortByPriorityDesc.mpr h2, h3⟩

/-- C6 witness: the amended statement evaluated on a concrete enabled global
lorebook whose entry keyword "cats" matches the recent text
"I love Cats dearly" case-insensitively. -/
theorem lorebook_matching_amended_witness :
    (⟨"e9".toList, "lb9".toList, ["cats".toList], "Lore.".toList, 0,
        true, false, false, "after_system".toList⟩ : LorebookEntry).is_enabled = true ∧
    ∃ kw ∈ (⟨"e9".toList, "lb9".toList, ["cats".toList], "Lore.".toList, 0,
        true, false, false, "after_system".toList⟩ : LorebookEntry).keywords,
      keywordMatches
        ⟨"e9".toList, "lb9".toList, ["cats".toList], "Lore.".toList, 0,
          true, false, false, "after_system".toList⟩
        "I love Cats dearly".toList (lowerStr "I love Cats dearly".toList) kw = true :=
  (lorebook_matching_amended
    [⟨"lb9".toList, true, true, none,
      [⟨"e9".toList, "lb9".toList, ["cats".toList], "Lore.".toList, 0,
        true, false, false, "after_system".toList⟩]⟩]
    [] "I love Cats dearly".toList
    ⟨"e9".toList, "lb9".toList, ["cats".toList], "Lore.".toList, 0,
      true, false, false, "after_system".toList⟩).1 (by decide)

/-- C8 (counterexample).  The fact "User: Is 25 years old today" satisfies
every condition of the claim against the stored memory "User: Is 25 years
old" (same category, both match the age pattern, contents differ, so
is_contradicting_fact holds), yet process_message skips it as a duplicate
because the substring check runs first: no update happens. -/
theorem memory_contradiction_substring_counterexample :
    is_contradicting_fact (lowerStr "User: Is 25 years old".toList)
        (lowerStr "User: Is 25 years old today".toList) = true ∧
    lowerStr "User: Is 25 years old".toList ≠
      lowerStr "User: Is 25 years old today".toList ∧
    processFact [⟨"m1".toList, "User: Is 25 years old".toList⟩]
        "User: Is 25 years old today".toList = .skippedDuplicate ∧
    processFact [⟨"m1".toList, "User: Is 25 years old".toList⟩]
        "User: Is 25 years old today".toList ≠ .updated "m1".toList := by
  decide

/-- C8 (amended).  A fact long enough not to be dropped updates in place the
first stored memory it contradicts, provided no earlier memory (in the
importance/recency order of get_for_character) matches it as a substring
duplicate or contradiction and the contradicting memory itself is not a
substring duplicate of the fact; in that case the outcome is an update, not
an insert, so the memory count is unchanged.  When one lowercased content
contains the other, the fact is skipped as a duplicate even if the
contradiction conditions hold. -/
theorem memory_contradiction_update_amended
    (pre post : List MemoryEntry) (m : MemoryEntry) (fact : RStr)
    (hlong : ¬ ((trimStr fact).isEmpty ∨ byteLen (trimStr fact) < 5))
    (hpre : ∀ p ∈ pre,
      containsStr (lowerStr p.content) (lowerStr (trimStr fact)) = false ∧
      containsStr (lowerStr (trimStr fact)) (lowerStr p.content) = false ∧
      is_contradicting_fact (lowerStr p.content) (lowerStr (trimStr fact)) = false)
    (hdup1 : containsStr (lowerStr m.content) (lowerStr (trimStr fact)) = false)
    (hdup2 : containsStr (lowerStr (trimStr fact)) (lowerStr m.content) = false)
    (hcontra : is_contradicting_fact (lowerStr m.content) (lowerStr (trimStr fact)) = true) :
    processFact (pre ++ m :: post) fact = .updated m.id ∧
    processFact (pre ++ m :: post) fact ≠ .inserted := by
  have hloop : factLoop (lowerStr (trimStr fact)) (pre ++ m :: post) = .updated m.id := by
    induction pre with
    | nil =>
      rw [List.nil_append, factLoop]
      rw [if_neg (by rw [hdup1, hdup2]; simp), if_pos hcontra]
    | cons p ps ih =>
      rw [List.cons_append, factLoop]
      rcases hpre p (List.mem_cons_self p ps) with ⟨h1, h2, h3⟩
      rw [if_neg (by rw [h1, h2]; simp), if_neg (by rw [h3]; simp)]
      exact ih (fun q hq => hpre q (List.mem_cons_of_mem p hq))
  rw [processFact, if_neg hlong]
  exact ⟨hloop, by rw [hloop]; simp⟩

/-- C8 witness: the S5 scenario — the stored memory "User: Is 25 years old"
and the new fact "User: Is 30 years old" — produces an in-place update of the
stored memory, not an insertion. -/
theorem memory_contradiction_update_amended_witness :
    processFact [⟨"m1".toList, "User: Is 25 years old".toList⟩]
        "User: Is 30 years old".toList = .updated "m1".toList ∧
    processFact [⟨"m1".toList, "User: Is 25 years old".toList⟩]
        "User: Is 30 years old".toList ≠ .inserted :=
  memory_contradiction_update_amended [] []
    ⟨"m1".toList, "User: Is 25 years old".toList⟩ "User: Is 30 years old".toList
    (by decide) (by intro p hp; cases hp) (by decide) (by decide) (by decide)

theorem mem_descendantStep_of_mem {msgs : List Message} {ids : List RStr} {x : RStr}
    (h : x ∈ ids) : x ∈ descendantStep msgs ids :=
  List.mem_append.mpr (Or.inl h)

theorem mem_descendantIds_self (msgs : List Message) (root : RStr) :
    root ∈ descendantIds msgs root := by
  rw [descendantIds]
  generalize msgs.length = n
  induction n with
  | zero => exact List.mem_singleton.mpr rfl
  | succ n ih =>
    rw [Function.iterate_succ_apply']
    exact mem_descendantStep_of_mem ih

/-- C2 (counterexample).  A task without a parent message (reachable by
regenerating a root message) hits the slot-occupied branch: the placeholder
row is deleted and the task reverts to pending, but conversation
.active_message is left pointing at the deleted placeholder, so persisted
state of the failed iteration remains and nothing is reset to a parent. -/
theorem slot_busy_cleanup_counterexample :
    (⟨"t1".toList, "c1".toList, none, .processing⟩ : QueueTask).parent_message_id = none ∧
    (processQueueReserve (some ⟨"other".toList, "c9".toList⟩)
        ⟨[⟨"ph".toList, "c1".toList, none, .character, [], true, 0, 0⟩],
         fun c => if c = "c1".toList then some "ph".toList else none,
         [⟨"t1".toList, "c1".toList, none, .processing⟩]⟩
        ⟨"t1".toList, "c1".toList, none, .processing⟩ "ph".toList).1
      = some ⟨"other".toList, "c9".toList⟩ ∧
    ((processQueueReserve (some ⟨"other".toList, "c9".toList⟩)
        ⟨[⟨"ph".toList, "c1".toList, none, .character, [], true, 0, 0⟩],
         fun c => if c = "c1".toList then some "ph".toList else none,
         [⟨"t1".toList, "c1".toList, none, .processing⟩]⟩
        ⟨"t1".toList, "c1".toList, none, .processing⟩ "ph".toList).2).messages = [] ∧
    ((processQueueReserve (some ⟨"other".toList, "c9".toList⟩)
        ⟨[⟨"ph".toList, "c1".toList, none, .character, [], true, 0, 0⟩],
         fun c => if c = "c1".toList then some "ph".toList else none,
         [⟨"t1".toList, "c1".toList, none, .processing⟩]⟩
        ⟨"t1".toList, "c1".toList, none, .processing⟩ "ph".toList).2).active_message
        "c1".toList = some "ph".toList := by
  refine ⟨rfl, rfl, ?_, rfl⟩
  decide

/-- C2 (amended).  With the slot occupied, try_start_generation returns no
token and leaves the slot unchanged, and the scheduler's cleanup deletes the
placeholder, reverts the task to pending, and — when the task has a parent
message — resets the conversation's active message to it.  A task with no
parent message leaves active_message untouched. -/
theorem slot_busy_cleanup_amended
    (g : GenerationState) (st : Store) (task : QueueTask) (ph : RStr) (pid : RStr)
    (hparent : task.parent_message_id = some pid) :
    AppState.try_start_generation (some g) ph task.conversation_id = (none, some g) ∧
    (processQueueReserve (some g) st task ph).1 = some g ∧
    (∀ m ∈ ((processQueueReserve (some g) st task ph).2).messages, m.id ≠ ph) ∧
    ((processQueueReserve (some g) st task ph).2).active_message task.conversation_id
      = some pid ∧
    (∀ t ∈ ((processQueueReserve (some g) st task ph).2).tasks,
      t.id = task.id → t.status = .pending) := by
  have hres : processQueueReserve (some g) st task ph =
      (some g, slotBusyCleanup st task ph) := rfl
  refine ⟨rfl, by rw [hres], ?_, ?_, ?_⟩
  · intro m hm
    rw [hres] at hm
    simp only [slotBusyCleanup, hparent, QueueRepo.update_status,
      ConversationRepo.update_active_message, MessageRepo.deleteMsg] at hm
    intro hid
    have hnot := of_decide_eq_true (List.mem_filter.mp hm).2
    exact hnot (by simpa [hid] using mem_descendantIds_self st.messages ph)
  · rw [hres]
    simp [slotBusyCleanup, hparent, QueueRepo.update_status,
      ConversationRepo.update_active_message]
  · intro t ht hid
    rw [hres] at ht
    simp only [slotBusyCleanup, hparent, QueueRepo.update_status,
      List.mem_map] at ht
    rcases ht with ⟨t0, _, rfl⟩
    by_cases h0 : t0.id = task.id
    · rw [if_pos h0]
    · rw [if_neg h0]
      rw [if_neg h0] at hid
      exact absurd hid h0

/-- C2 witness: the amended statement on a concrete occupied slot, store and
parented task. -/
theorem slot_busy_cleanup_amended_witness :
    AppState.try_start_generation (some ⟨"mX".toList, "cX".toList⟩) "ph2".toList
        "c2".toList = (none, some ⟨"mX".toList, "cX".toList⟩) ∧
    (processQueueReserve (some ⟨"mX".toList, "cX".toList⟩)
        ⟨[⟨"ph2".toList, "c2".toList, some "par".toList, .character, [], true, 0, 0⟩,
          ⟨"par".toList, "c2".toList, none, .user, [], true, 0, 1⟩],
         fun c => if c = "c2".toList then some "ph2".toList else none,
         [⟨"t2".toList, "c2".toList, some "par".toList, .processing⟩]⟩
        ⟨"t2".toList, "c2".toList, some "par".toList, .processing⟩ "ph2".toList).1
      = some ⟨"mX".toList, "cX".toList⟩ ∧
    (∀ m ∈ ((processQueueReserve (some ⟨"mX".toList, "cX".toList⟩)
        ⟨[⟨"ph2".toList, "c2".toList, some "par".toList, .character, [], true, 0, 0⟩,
          ⟨"par".toList, "c2".toList, none, .user, [], true, 0, 1⟩],
         fun c => if c = "c2".toList then some "ph2".toList else none,
         [⟨"t2".toList, "c2".toList, some "par".toList, .processing⟩]⟩
        ⟨"t2".toList, "c2".toList, some "par".toList, .processing⟩ "ph2".toList).2).messages,
      m.id ≠ "ph2".toList) ∧
    ((processQueueReserve (some ⟨"mX".toList, "cX".toList⟩)
        ⟨[⟨"ph2".toList, "c2".toList, some "par".toList, .character, [], true, 0, 0⟩,
          ⟨"par".toList, "c2".toList, none, .user, [], true, 0, 1⟩],
         fun c => if c = "c2".toList then some "ph2".toList else none,
         [⟨"t2".toList, "c2".toList, some "par".toList, .processing⟩]⟩
        ⟨"t2".toList, "c2".toList, some "par".toList, .processing⟩ "ph2".toList).2).active_message
        "c2".toList = some "par".toList ∧
    (∀ t ∈ ((processQueueReserve (some ⟨"mX".toList, "cX".toList⟩)
        ⟨[⟨"ph2".toList, "c2".toList, some "par".toList, .character, [], true, 0, 0⟩,
          ⟨"par".toList, "c2".toList, none, .user, [], true, 0, 1⟩],
         fun c => if c = "c2".toList then some "ph2".toList else none,
         [⟨"t2".toList, "c2".toList, some "par".toList, .processing⟩]⟩
        ⟨"t2".toList, "c2".toList, some "par".toList, .processing⟩ "ph2".toList).2).tasks,
      t.id = "t2".toList → t.status = .pending) := by
  have h := slot_busy_cleanup_amended ⟨"mX".toList, "cX".toList⟩
    ⟨[⟨"ph2".toList, "c2".toList, some "par".toList, .character, [], true, 0, 0⟩,
      ⟨"par".toList, "c2".toList, none, .user, [], true, 0, 1⟩],
     fun c => if c = "c2".toList then some "ph2".toList else none,
     [⟨"t2".toList, "c2".toList, some "par".toList, .processing⟩]⟩
    ⟨"t2".toList, "c2".toList, some "par".toList, .processing⟩ "ph2".toList "par".toList rfl
  exact ⟨h.1, h.2.1, h.2.2.1, h.2.2.2.1, h.2.2.2.2⟩

theorem sumTokens_nil : sumTokens [] = 0 := rfl

theorem sumTokens_cons (m : Message) (ms : List Message) :
    sumTokens (m :: ms) = m.token_count + sumTokens ms := by
  simp [sumTokens]

theorem sumTokens_reverse (ms : List Message) : sumTokens ms.reverse = sumTokens ms := by
  rw [sumTokens, sumTokens, List.map_reverse]
  exact List.sum_reverse _

theorem selectHistory_fst_prefix (avail : ℤ) :
    ∀ (l : List Message) (used : ℤ), (selectHistory avail l used).1 <+: l := by
  intro l
  induction l with
  | nil => intro used; simp [selectHistory]
  | cons m ms ih =>
    intro used
    rw [selectHistory]
    by_cases h : used + m.token_count > avail
    · rw [if_pos h]; exact List.nil_prefix
    · rw [if_neg h]
      rcases ih (used + m.token_count) with ⟨u, hu⟩
      exact ⟨u, by rw [List.cons_append, hu]⟩

theorem selectHistory_snd (avail : ℤ) :
    ∀ (l : List Message) (used : ℤ),
      (selectHistory avail l used).2 = used + sumTokens (selectHistory avail l used).1 := by
  intro l
  induction l with
  | nil => intro used; simp [selectHistory, sumTokens]
  | cons m ms ih =>
    intro used
    rw [selectHistory]
    by_cases h : used + m.token_count > avail
    · rw [if_pos h]; simp [sumTokens]
    · rw [if_neg h]
      simp only [sumTokens_cons]
      rw [ih (used + m.token_count)]
      ring

theorem selectHistory_snd_le (avail : ℤ) :
    ∀ (l : List Message) (used : ℤ), used ≤ avail →
      (selectHistory avail l used).2 ≤ avail := by
  intro l
  induction l with
  | nil => intro used h; simpa [selectHistory] using h
  | cons m ms ih =>
    intro used h
    rw [selectHistory]
    by_cases hx : used + m.token_count > avail
    · rw [if_pos hx]; exact h
    · rw [if_neg hx]
      exact ih (used + m.token_count) (by omega)

/-- C1 (counterexample).  With total budget B = 0 the available history
budget is 0 - tokens(system_prompt) - 512 < 0; the loop selects nothing, and
the empty selection's token sum 0 exceeds the negative available budget,
refuting the claim's unconditional "the sum never exceeds available". -/
theorem build_context_budget_counterexample :
    (build_context [] []
        [⟨"m1".toList, "c1".toList, none, .user, "hi".toList, true, 0, 1⟩]
        [⟨"ch1".toList, "Aria".toList, [], [], "Hi there friend".toList, []⟩]
        none ⟨none, none⟩ 0).toOption =
      some ⟨"Hi there friend".toList, [], "Aria".toList, "User".toList, 5⟩ ∧
    sumTokens ([] : List Message) = 0 ∧
    ¬ (sumTokens ([] : List Message) ≤
        0 - estimate_tokens "Hi there friend".toList - 512) := by
  refine ⟨by decide, rfl, by decide⟩

/-- C1 (amended).  Every successful build_context result satisfies:
total_tokens equals tokens(system_prompt) plus the sum of the selected
messages' token counts; the selected history is a contiguous suffix of the
chronological active chain (whole messages only, the most recent ones); and
whenever available = B - tokens(system_prompt) - response_reserve is
nonnegative, the selected token sum is at most available.  (When available
is negative the selection is empty and its sum 0 exceeds available.) -/
theorem build_context_budget_amended
    (lbs : List Lorebook) (convLbIds : List RStr) (messages : List Message)
    (characters : List Character) (persona : Option Persona)
    (settings : GenerationSettings) (max_tokens : ℤ) (r : ContextResult)
    (h : build_context lbs convLbIds messages characters persona settings
      max_tokens = .ok r) :
    r.total_tokens = estimate_tokens r.system_prompt + sumTokens r.messages ∧
    r.messages <:+ messages ∧
    (0 ≤ max_tokens - estimate_tokens r.system_prompt -
        settings.response_reserve.getD 512 →
      sumTokens r.messages ≤ max_tokens - estimate_tokens r.system_prompt -
        settings.response_reserve.getD 512) := by
  rw [build_context.eq_def] at h
  cases hc : characters.head? with
  | none => rw [hc] at h; cases h
  | some character =>
    rw [hc] at h
    simp only [Except.ok.injEq] at h
    subst h
    refine ⟨?_, ?_, ?_⟩
    · simp only
      rw [selectHistory_snd, sumTokens_reverse]
      ring
    · simp only
      rcases selectHistory_fst_prefix _ messages.reverse 0 with ⟨u, hu⟩
      refine ⟨u.reverse, ?_⟩
      have := congrArg List.reverse hu
      rw [List.reverse_append, List.reverse_reverse] at this
      exact this
    · intro hge
      simp only at hge ⊢
      have hle := selectHistory_snd_le _ messages.reverse 0 hge
      rw [selectHistory_snd] at hle
      rw [sumTokens_reverse]
      omega

/-- C1 witness: the amended statement on a concrete one-message conversation
with budget 2000; the selection keeps the message and the totals add up. -/
theorem build_context_budget_amended_witness :
    (⟨"Hi there friend".toList,
        [⟨"m1".toList, "c1".toList, none, .user, "hi".toList, true, 0, 1⟩],
        "Aria".toList, "User".toList, 6⟩ : ContextResult).total_tokens =
      estimate_tokens "Hi there friend".toList +
        sumTokens [⟨"m1".toList, "c1".toList, none, .user, "hi".toList, true, 0, 1⟩] ∧
    ([⟨"m1".toList, "c1".toList, none, .user, "hi".toList, true, 0, 1⟩] : List Message) <:+
      [⟨"m1".toList, "c1".toList, none, .user, "hi".toList, true, 0, 1⟩] ∧
    sumTokens [⟨"m1".toList, "c1".toList, none, .user, "hi".toList, true, 0, 1⟩] ≤
      2000 - estimate_tokens "Hi there friend".toList - 512 := by
  have h := build_context_budget_amended [] []
    [⟨"m1".toList, "c1".toList, none, .user, "hi".toList, true, 0, 1⟩]
    [⟨"ch1".toList, "Aria".toList, [], [], "Hi there friend".toList, []⟩]
    none ⟨none, none⟩ 2000
    ⟨"Hi there friend".toList,
      [⟨"m1".toList, "c1".toList, none, .user, "hi".toList, true, 0, 1⟩],
      "Aria".toList, "User".toList, 6⟩ rfl
  exact ⟨h.1, h.2.1, h.2.2 (by decide)⟩

/-- C7 (counterexample).  For the leaked buffer "Scenario: blah blah Aria:
first Aria: second", which contains "Aria: " twice, the filter strips up to
the end of the first occurrence and emits "first Aria: second"; the claim's
last-occurrence rule would instead make the response start at "second", and
the text between the occurrences is not stripped. -/
theorem leak_strip_last_occurrence_counterexample :
    (TokenFilter.process (TokenFilter.new "Aria".toList)
        "Scenario: blah blah Aria: first Aria: second".toList).1
      = ["first Aria: second".toList] ∧
    containsStr "first Aria: second".toList "Aria: ".toList = true ∧
    (TokenFilter.process (TokenFilter.new "Aria".toList)
        "Scenario: blah blah Aria: first Aria: second".toList).1
      ≠ ["second".toList] := by
  refine ⟨by decide, by decide, by decide⟩

/-- C7 (amended).  When, in neutral state with more than 20 buffered bytes,
the trimmed buffer starts with a known leak marker, the filter locates the
first occurrence of "{name}: " in the buffer (the "{name}: *" probe is only
consulted when "{name}: " is absent, which an occurrence of "{name}: *"
makes impossible), treats the text after that first occurrence as the
response, and emits it up to a retained partial "</RESPONSE>" tail. -/
theorem leak_strip_first_occurrence_amended
    (f : TokenFilter) (token : RStr) (pos : Nat)
    (hth : f.in_thinking_block = false)
    (hresp : f.in_response_block = false)
    (hlen : 20 < (f.buffer ++ token).length)
    (hmark : ∃ mk ∈ leakMarkers f.character_name,
      startsWithStr (trimStart (f.buffer ++ token)) mk = true)
    (hdia : strFind (f.character_name ++ ": ".toList) (f.buffer ++ token) = some pos)
    (hnoclose : strFind "</RESPONSE>".toList
      ((f.buffer ++ token).drop (pos + (f.character_name ++ ": ".toList).length)) = none) :
    (TokenFilter.process f token).1 =
      (if 0 < ((f.buffer ++ token).drop
            (pos + (f.character_name ++ ": ".toList).length)).length -
          keepLen ((f.buffer ++ token).drop
            (pos + (f.character_name ++ ": ".toList).length)) "</RESPONSE>".toList
       then [((f.buffer ++ token).drop
            (pos + (f.character_name ++ ": ".toList).length)).take
          (((f.buffer ++ token).drop
            (pos + (f.character_name ++ ": ".toList).length)).length -
            keepLen ((f.buffer ++ token).drop
              (pos + (f.character_name ++ ": ".toList).length)) "</RESPONSE>".toList)]
       else []) ∧
    ((TokenFilter.process f token).2).in_response_block = true ∧
    ((TokenFilter.process f token).2).buffer =
      ((f.buffer ++ token).drop (pos + (f.character_name ++ ": ".toList).length)).drop
        (((f.buffer ++ token).drop
          (pos + (f.character_name ++ ": ".toList).length)).length -
          keepLen ((f.buffer ++ token).drop
            (pos + (f.character_name ++ ": ".toList).length)) "</RESPONSE>".toList) := by
  have hne : ({ f with buffer := f.buffer ++ token } : TokenFilter).buffer.isEmpty = false := by
    simp only
    rw [Bool.eq_false_iff]
    intro hemp
    rw [List.isEmpty_iff.mp hemp] at hlen
    simp at hlen
  obtain ⟨mk0, hmk0⟩ : ∃ x, (leakMarkers f.character_name).find?
      (fun m => startsWithStr (trimStart (f.buffer ++ token)) m) = some x := by
    rcases hmark with ⟨mk, hmem, hpre⟩
    rcases Option.isSome_iff_exists.mp
      (List.find?_isSome.mpr ⟨mk, hmem, hpre⟩) with ⟨x, hx⟩
    exact ⟨x, hx⟩
  have hstrip : applyLeakStrip { f with buffer := f.buffer ++ token } =
      { f with
          buffer := List.drop (pos + (f.character_name ++ ": ".toList).length)
            (f.buffer ++ token)
          in_response_block := true } := by
    rw [applyLeakStrip]
    simp only at hmk0 ⊢
    rw [hmk0]
    simp only
    rw [hdia]
  rw [TokenFilter.process, show (1000 : ℕ) = 999 + 1 from rfl, processGo]
  rw [if_neg (by rw [hne]; exact Bool.false_ne_true)]
  rw [if_pos (⟨by simp [hth], by simp [hresp], hlen⟩ :
    ¬ ({ f with buffer := f.buffer ++ token } : TokenFilter).in_thinking_block = true ∧
    ¬ ({ f with buffer := f.buffer ++ token } : TokenFilter).in_response_block = true ∧
    ({ f with buffer := f.buffer ++ token } : TokenFilter).buffer.length > 20)]
  rw [hstrip]
  dsimp only
  rw [hth, hnoclose]
  simp only [Bool.false_eq_true, if_false, if_true]
  by_cases hpos2 : 0 < ((f.buffer ++ token).drop
      (pos + (f.character_name ++ ": ".toList).length)).length -
      keepLen ((f.buffer ++ token).drop
        (pos + (f.character_name ++ ": ".toList).length)) "</RESPONSE>".toList
  · rw [if_pos hpos2, if_pos hpos2]
    exact ⟨by simp, rfl, rfl⟩
  · rw [if_neg hpos2, if_neg hpos2]
    refine ⟨rfl, rfl, ?_⟩
    have h0 : ((f.buffer ++ token).drop
        (pos + (f.character_name ++ ": ".toList).length)).length -
        keepLen ((f.buffer ++ token).drop
          (pos + (f.character_name ++ ": ".toList).length)) "</RESPONSE>".toList = 0 := by
      omega
    rw [h0, List.drop_zero]

/-- C7 witness: the amended statement on a concrete leaked buffer containing
a single "Aria: " marker; the text after it is emitted as the response. -/
theorem leak_strip_first_occurrence_amended_witness :
    (TokenFilter.process (TokenFilter.new "Aria".toList)
        "Scenario: a quiet tavern Aria: welcome in".toList).1
      = (if 0 < (("Scenario: a quiet tavern Aria: welcome in".toList).drop
            (25 + ("Aria".toList ++ ": ".toList).length)).length -
          keepLen (("Scenario: a quiet tavern Aria: welcome in".toList).drop
            (25 + ("Aria".toList ++ ": ".toList).length)) "</RESPONSE>".toList
         then [(("Scenario: a quiet tavern Aria: welcome in".toList).drop
            (25 + ("Aria".toList ++ ": ".toList).length)).take
            ((("Scenario: a quiet tavern Aria: welcome in".toList).drop
              (25 + ("Aria".toList ++ ": ".toList).length)).length -
              keepLen (("Scenario: a quiet tavern Aria: welcome in".toList).drop
                (25 + ("Aria".toList ++ ": ".toList).length)) "</RESPONSE>".toList)]
         else []) ∧
    ((TokenFilter.process (TokenFilter.new "Aria".toList)
        "Scenario: a quiet tavern Aria: welcome in".toList).2).in_response_block = true := by
  have h := leak_strip_first_occurrence_amended (TokenFilter.new "Aria".toList)
    "Scenario: a quiet tavern Aria: welcome in".toList 25
    rfl rfl (by decide) (by decide) (by decide) (by decide)
  exact ⟨h.1, h.2.1⟩

theorem endsWithStr_iff {s t : RStr} : endsWithStr s t = true ↔ t <:+ s := by
  rw [endsWithStr]
  exact List.isSuffixOf_iff_suffix

theorem keepLenAux_ge (buf tag : RStr) (j : Nat) (hj1 : 0 < j)
    (hsuf : tag.take j <:+ buf) :
    ∀ n, j ≤ n → j ≤ keepLenAux buf tag n := by
  intro n
  induction n with
  | zero => intro h; omega
  | succ n ih =>
    intro h
    rw [keepLenAux]
    by_cases hc : endsWithStr buf (tag.take (n + 1)) = true
    · rw [if_pos hc]; omega
    · rw [if_neg hc]
      refine ih ?_
      rcases Nat.lt_or_ge j (n + 1) with h1 | h1
      · omega
      · exfalso
        have hj : j = n + 1 := by omega
        exact hc (hj ▸ endsWithStr_iff.mpr hsuf)

theorem keepLen_ge (buf tag : RStr) (j : Nat) (hj1 : 0 < j)
    (hj2 : j ≤ tag.length - 1) (hsuf : tag.take j <:+ buf) :
    j ≤ keepLen buf tag :=
  keepLenAux_ge buf tag j hj1 hsuf _ hj2

theorem strFind_eq_none_iff (pat : RStr) :
    ∀ s : RStr, (strFind pat s = none ↔ ∀ i, ¬ pat <+: s.drop i) := by
  intro s
  induction s with
  | nil =>
    rw [strFind]
    by_cases h : pat.isPrefixOf [] = true
    · rw [if_pos h]
      constructor
      · intro habs; cases habs
      · intro hall
        exact absurd (List.isPrefixOf_iff_prefix.mp h)
          (by simpa using hall 0)
    · rw [if_neg h]
      constructor
      · intro _ i hp
        rw [List.drop_nil] at hp
        exact h (List.isPrefixOf_iff_prefix.mpr hp)
      · intro _; rfl
  | cons c cs ih =>
    rw [strFind]
    by_cases h : pat.isPrefixOf (c :: cs) = true
    · rw [if_pos h]
      constructor
      · intro habs; cases habs
      · intro hall
        exact absurd (List.isPrefixOf_iff_prefix.mp h) (by simpa using hall 0)
    · rw [if_neg h]
      rw [Option.map_eq_none', ih]
      constructor
      · intro hall i
        match i with
        | 0 =>
          intro hp
          exact h (List.isPrefixOf_iff_prefix.mpr (by simpa using hp))
        | i + 1 =>
          rw [List.drop_succ_cons]
          exact hall i
      · intro hall i
        have := hall (i + 1)
        rwa [List.drop_succ_cons] at this

/-- No occurrence of the tag starts inside the emitted region: if the buffer
holds no complete tag, every position strictly before the split point
length - keepLen cannot begin a tag occurrence, whatever text arrives
later. -/
theorem no_tag_start_in_emitted (b fut tag : RStr)
    (hno : strFind tag b = none) (p : Nat)
    (hp : p + keepLen b tag < b.length) :
    ¬ tag <+: (b ++ fut).drop p := by
  intro hpre
  have hplen : p ≤ b.length := by omega
  have hdropapp : (b ++ fut).drop p = b.drop p ++ fut :=
    List.drop_append_of_le_length hplen
  rw [hdropapp] at hpre
  by_cases hcase : p + tag.length ≤ b.length
  · have htake := List.prefix_iff_eq_take.mp hpre
    have hlen2 : tag.length ≤ (b.drop p).length := by
      rw [List.length_drop]; omega
    have hin : tag <+: b.drop p := by
      rw [List.take_append_of_le_length hlen2] at htake
      rw [List.prefix_iff_eq_take]
      exact htake
    exact (strFind_eq_none_iff tag b).mp hno p hin
  · push_neg at hcase
    have hL1 : 0 < b.length - p := by omega
    have hL2 : b.length - p ≤ tag.length - 1 := by omega
    have hsufb : b.drop p <:+ b := List.drop_suffix p b
    have heq : b.drop p = tag.take (b.length - p) := by
      have htake := List.prefix_iff_eq_take.mp hpre
      have hlenp : (b.drop p).length = b.length - p := List.length_drop p b
      calc b.drop p
          = (b.drop p ++ fut).take (b.drop p).length := (List.take_left _ _).symm
        _ = ((b.drop p ++ fut).take tag.length).take (b.drop p).length := by
            rw [List.take_take]
            congr 1
            omega
        _ = tag.take (b.length - p) := by rw [← htake, hlenp]
    have := keepLen_ge b tag (b.length - p) hL1 hL2 (heq ▸ hsufb)
    omega

/-- C3 (counterexample).  In the response block the filter only retains
partial "</RESPONSE>" tails: after the token "<RESPONSE>hello <think" it
emits the chunk "hello <think", whose tail "<think" is a proper prefix of
the known tag "<thinking>", and the following token "ing> ok" is emitted as
a separate chunk, so the tag occurrence spanning the two tokens is split by
the emission. -/
theorem token_filter_prefix_emission_counterexample :
    (TokenFilter.process (TokenFilter.new "Aria".toList)
        "<RESPONSE>hello <think".toList).1 = ["hello <think".toList] ∧
    (TokenFilter.process
        (TokenFilter.process (TokenFilter.new "Aria".toList)
          "<RESPONSE>hello <think".toList).2 "ing> ok".toList).1
      = ["ing> ok".toList] ∧
    endsWithStr "hello <think".toList "<think".toList = true ∧
    "<think".toList <+: "<thinking>".toList ∧
    "<think".toList ≠ "<thinking>".toList ∧
    containsStr ("hello <think".toList ++ "ing> ok".toList) "<thinking>".toList = true ∧
    containsStr "hello <think".toList "<thinking>".toList = false ∧
    containsStr "ing> ok".toList "<thinking>".toList = false := by
  refine ⟨by decide, by decide, by decide, by decide, by decide, by decide, by decide,
    by decide⟩

/-- C3 (amended).  Inside the response block, when the buffer holds no
complete "</RESPONSE>", process emits everything except the longest tail
that is a proper prefix of "</RESPONSE>" and retains that tail; consequently
no occurrence of "</RESPONSE>" — present or arriving later — ever begins
inside the emitted chunk.  (Occurrences of the other tags, such as
"<thinking>", are not protected in this state, and the neutral-state force
flushes are similarly unprotected, as the counterexample shows.) -/
theorem token_filter_response_no_split_amended
    (f : TokenFilter) (token fut : RStr) (p : Nat)
    (hth : f.in_thinking_block = false)
    (hresp : f.in_response_block = true)
    (hnotag : strFind "</RESPONSE>".toList (f.buffer ++ token) = none)
    (hp : p + keepLen (f.buffer ++ token) "</RESPONSE>".toList <
      (f.buffer ++ token).length) :
    (TokenFilter.process f token).1 =
      [(f.buffer ++ token).take
        ((f.buffer ++ token).length -
          keepLen (f.buffer ++ token) "</RESPONSE>".toList)] ∧
    ((TokenFilter.process f token).2).buffer =
      (f.buffer ++ token).drop
        ((f.buffer ++ token).length -
          keepLen (f.buffer ++ token) "</RESPONSE>".toList) ∧
    ((TokenFilter.process f token).2).in_response_block = true ∧
    ¬ "</RESPONSE>".toList <+: ((f.buffer ++ token) ++ fut).drop p := by
  have hne : ({ f with buffer := f.buffer ++ token } : TokenFilter).buffer.isEmpty = false := by
    simp only
    rw [Bool.eq_false_iff]
    intro hemp
    rw [List.isEmpty_iff.mp hemp] at hp
    simp at hp
  have hemit : 0 < (f.buffer ++ token).length -
      keepLen (f.buffer ++ token) "</RESPONSE>".toList := by omega
  have hleak : ¬ (¬ ({ f with buffer := f.buffer ++ token } : TokenFilter).in_thinking_block = true ∧
      ¬ ({ f with buffer := f.buffer ++ token } : TokenFilter).in_response_block = true ∧
      ({ f with buffer := f.buffer ++ token } : TokenFilter).buffer.length > 20) := by
    intro hand
    exact hand.2.1 (by simpa using hresp)
  refine ⟨?_, ?_, ?_, no_tag_start_in_emitted _ fut _ hnotag p hp⟩ <;>
  · rw [TokenFilter.process, show (1000 : ℕ) = 999 + 1 from rfl, processGo]
    rw [if_neg (by rw [hne]; exact Bool.false_ne_true)]
    rw [if_neg hleak]
    dsimp only
    rw [hth, hresp, hnotag]
    simp only [Bool.false_eq_true, if_false, if_true]
    rw [if_pos hemit]
    try rfl

/-- C3 witness: the amended statement on a buffer ending with the partial
tail "</RE": the chunk "abcd" is emitted, "</RE" is retained, and no
occurrence of "</RESPONSE>" begins inside the emitted chunk even after the
rest of the tag arrives. -/
theorem token_filter_response_no_split_amended_witness :
    (TokenFilter.process ⟨"abc".toList, false, true, "Aria".toList⟩ "d</RE".toList).1 =
      [("abc".toList ++ "d</RE".toList).take
        (("abc".toList ++ "d</RE".toList).length -
          keepLen ("abc".toList ++ "d</RE".toList) "</RESPONSE>".toList)] ∧
    ¬ "</RESPONSE>".toList <+:
      (("abc".toList ++ "d</RE".toList) ++ "SPONSE> x".toList).drop 2 := by
  have h := token_filter_response_no_split_amended
    ⟨"abc".toList, false, true, "Aria".toList⟩ "d</RE".toList "SPONSE> x".toList 2
    rfl rfl (by decide) (by decide)
  exact ⟨h.1, h.2.2.2⟩

theorem mem_insertByBranchIdx {x y : Message} {l : List Message} :
    y ∈ insertByBranchIdx x l ↔ y = x ∨ y ∈ l := by
  induction l with
  | nil => simp [insertByBranchIdx]
  | cons z zs ih =>
    by_cases h : x.branch_index < z.branch_index <;>
      simp [insertByBranchIdx, h, ih] <;> tauto

theorem mem_sortByBranchIdx {y : Message} {l : List Message} :
    y ∈ sortByBranchIdx l ↔ y ∈ l := by
  induction l with
  | nil => simp [sortByBranchIdx]
  | cons z zs ih =>
    simp only [sortByBranchIdx, List.foldr_cons, mem_insertByBranchIdx, List.mem_cons]
    rw [← sortByBranchIdx, ih]

theorem find_by_id_spec {st : Store} {id : RStr} {m : Message}
    (h : MessageRepo.find_by_id st id = some m) : m ∈ st.messages ∧ m.id = id := by
  rw [MessageRepo.find_by_id] at h
  have hp := List.find?_some h
  exact ⟨List.mem_of_find?_eq_some h, of_decide_eq_true hp⟩

theorem find_by_id_of_mem {st : Store} {m : Message} (hm : m ∈ st.messages)
    (hnd : (st.messages.map (·.id)).Nodup) :
    MessageRepo.find_by_id st m.id = some m := by
  rw [MessageRepo.find_by_id]
  obtain ⟨x, hx⟩ : ∃ x, st.messages.find? (fun y => decide (y.id = m.id)) = some x :=
    Option.isSome_iff_exists.mp (List.find?_isSome.mpr ⟨m, hm, by simp⟩)
  have hp := List.find?_some hx
  have hxid : x.id = m.id := of_decide_eq_true hp
  have hxmem : x ∈ st.messages := List.mem_of_find?_eq_some hx
  have : x = m := List.inj_on_of_nodup_map hnd hxmem hm hxid
  rw [hx, this]

theorem mem_siblings_parent {st : Store} {m : Message} {pid : RStr}
    (hpid : m.parent_id = some pid) {x : Message} :
    x ∈ MessageRepo.find_siblings_of st m ↔
      x ∈ st.messages ∧ x.parent_id = some pid := by
  rw [MessageRepo.find_siblings_of, hpid]
  rw [mem_sortByBranchIdx, List.mem_filter]
  constructor
  · exact fun ⟨h1, h2⟩ => ⟨h1, of_decide_eq_true h2⟩
  · exact fun ⟨h1, h2⟩ => ⟨h1, decide_eq_true h2⟩

theorem ids_eq_of_parentPairs_eq {xs ys : List Message}
    (h : parentPairs xs = parentPairs ys) : xs.map (·.id) = ys.map (·.id) := by
  have := congrArg (List.map Prod.fst) h
  simpa [parentPairs, List.map_map, Function.comp] using this

theorem parentPairs_set_branch_active (st : Store) (id : RStr) (b : Bool) :
    parentPairs (MessageRepo.set_branch_active st id b).messages =
      parentPairs st.messages := by
  simp only [MessageRepo.set_branch_active, parentPairs, List.map_map]
  refine List.map_congr_left ?_
  intro m _
  by_cases h : m.id = id <;> simp [h]

theorem parentPairs_deactivate_subtree (st : Store) (root : RStr) :
    parentPairs (MessageRepo.deactivate_subtree st root).messages =
      parentPairs st.messages := by
  simp only [MessageRepo.deactivate_subtree, parentPairs, List.map_map]
  refine List.map_congr_left ?_
  intro m _
  by_cases h : m.id ∈ descendantIds st.messages root <;> simp [h]

theorem parentPairs_activate_path_to_root (st : Store) (mid : RStr) :
    parentPairs (MessageRepo.activate_path_to_root st mid).messages =
      parentPairs st.messages := by
  simp only [MessageRepo.activate_path_to_root, parentPairs, List.map_map]
  refine List.map_congr_left ?_
  intro m _
  by_cases h : m.id ∈ ancestorChain st.messages (st.messages.length + 1) (some mid) <;>
    simp [h]

theorem parentPairs_activate_deepest_path :
    ∀ (fuel : Nat) (st : Store) (cur : RStr),
      parentPairs (MessageRepo.activate_deepest_path st fuel cur).messages =
        parentPairs st.messages := by
  intro fuel
  induction fuel with
  | zero => intro st cur; rfl
  | succ n ih =>
    intro st cur
    rw [MessageRepo.activate_deepest_path]
    cases h : ((MessageRepo.find_children st cur).find?
        (fun c => c.is_active_branch)).orElse
        (fun _ => (MessageRepo.find_children st cur).head?) with
    | none => rfl
    | some child =>
      rw [ih, parentPairs_set_branch_active]

theorem parentPairs_foldl_deactivate (l : List Message) (mid : RStr) :
    ∀ st : Store,
      parentPairs ((l.foldl (fun acc s =>
        if s.is_active_branch ∧ s.id ≠ mid then
          MessageRepo.deactivate_subtree acc s.id else acc) st).messages) =
      parentPairs st.messages := by
  induction l with
  | nil => intro st; rfl
  | cons s ss ih =>
    intro st
    rw [List.foldl_cons, ih]
    by_cases h : s.is_active_branch ∧ s.id ≠ mid
    · rw [if_pos h, parentPairs_deactivate_subtree]
    · rw [if_neg h]

theorem active_message_set_branch_active (st : Store) (id : RStr) (b : Bool) :
    (MessageRepo.set_branch_active st id b).active_message = st.active_message := rfl

theorem findDeepestActiveGo_desc (st : Store) :
    ∀ (fuel : Nat) (cur : Message),
      Desc (parentPairs st.messages) cur.id (findDeepestActiveGo st fuel cur).id := by
  intro fuel
  induction fuel with
  | zero => intro cur; exact Desc.refl _
  | succ n ih =>
    intro cur
    rw [findDeepestActiveGo]
    cases h : MessageRepo.find_active_child st cur.id with
    | none => exact Desc.refl _
    | some child =>
      have hchild : child ∈ st.messages ∧ child.parent_id = some cur.id := by
        rw [MessageRepo.find_active_child] at h
        have hmem := List.mem_of_mem_head? h
        have hpred := List.mem_filter.mp hmem
        exact ⟨hpred.1, (of_decide_eq_true hpred.2).1⟩
      exact Desc.step cur.id child.id _
        (List.mem_map.mpr ⟨child, hchild.1, by rw [hchild.2]⟩) (ih child)

theorem Desc.rank_le {pairs : List (RStr × Option RStr)} {rank : RStr → ℕ}
    (hR : ∀ q ∈ pairs, ∀ pr, q.2 = some pr → rank pr < rank q.1) :
    ∀ {x y : RStr}, Desc pairs x y → rank x ≤ rank y := by
  intro x y h
  induction h with
  | refl => exact le_refl _
  | step x c y hmem _ ih =>
    have h2 : rank x < rank c := hR (c, some x) hmem x rfl
    omega

theorem Desc.last_step {pairs : List (RStr × Option RStr)} :
    ∀ {x y : RStr}, Desc pairs x y →
      x = y ∨ ∃ z, (y, some z) ∈ pairs ∧ Desc pairs x z := by
  intro x y h
  induction h with
  | refl => exact Or.inl rfl
  | step x c y hmem hdesc ih =>
    rcases ih with rfl | ⟨z, hz, hdz⟩
    · exact Or.inr ⟨x, hmem, Desc.refl x⟩
    · exact Or.inr ⟨z, hz, Desc.step x c z hmem hdz⟩

/-- Behaviour of switch_to_branch when the target id resolves: the
conversation of the resolved target is re-pointed to a node reachable from
the target by child steps, over a store whose (id, parent) structure is
unchanged. -/
theorem switch_to_branch_spec (st : Store) (tid : RStr) (target : Message)
    (htar : MessageRepo.find_by_id st tid = some target) :
    ∃ (st4 : Store) (d : Message),
      MessageRepo.switch_to_branch st tid =
        some (ConversationRepo.update_active_message st4 target.conversation_id d.id) ∧
      parentPairs st4.messages = parentPairs st.messages ∧
      Desc (parentPairs st.messages) tid d.id := by
  rw [MessageRepo.switch_to_branch, htar]
  simp only
  set st1 := (MessageRepo.find_siblings_of st target).foldl (fun acc s =>
    if s.is_active_branch ∧ s.id ≠ tid then
      MessageRepo.deactivate_subtree acc s.id else acc) st with hst1
  set st2 := MessageRepo.set_branch_active st1 tid true with hst2
  set st3 := MessageRepo.activate_path_to_root st2 tid with hst3
  set st4 := MessageRepo.activate_deepest_path st3 (st3.messages.length + 1) tid with hst4
  have hpp : parentPairs st4.messages = parentPairs st.messages := by
    rw [hst4, parentPairs_activate_deepest_path, hst3,
      parentPairs_activate_path_to_root, hst2, parentPairs_set_branch_active, hst1,
      parentPairs_foldl_deactivate]
  have htid : target.id = tid := (find_by_id_spec htar).2
  have hmem4 : ∃ x ∈ st4.messages, x.id = tid := by
    have hids := ids_eq_of_parentPairs_eq hpp
    have : tid ∈ st4.messages.map (·.id) := by
      rw [hids]
      exact List.mem_map.mpr ⟨target, (find_by_id_spec htar).1, htid⟩
    rcases List.mem_map.mp this with ⟨x, hx1, hx2⟩
    exact ⟨x, hx1, hx2⟩
  obtain ⟨tRec, htRec⟩ : ∃ x, st4.messages.find? (fun y => decide (y.id = tid)) = some x :=
    Option.isSome_iff_exists.mp (List.find?_isSome.mpr
      (by rcases hmem4 with ⟨x, hx1, hx2⟩; exact ⟨x, hx1, by simp [hx2]⟩))
  have hpRec := List.find?_some htRec
  have htRecId : tRec.id = tid := of_decide_eq_true hpRec
  have hfda : MessageRepo.find_deepest_active st4 tid =
      some (findDeepestActiveGo st4 (st4.messages.length + 1) tRec) := by
    rw [MessageRepo.find_deepest_active, MessageRepo.find_by_id, htRec, Option.map_some']
  rw [hfda]
  refine ⟨st4, findDeepestActiveGo st4 (st4.messages.length + 1) tRec, rfl, hpp, ?_⟩
  have hdesc := findDeepestActiveGo_desc st4 (st4.messages.length + 1) tRec
  rw [htRecId, hpp] at hdesc
  exact hdesc

theorem rank_hyp_of_all {msgs : List Message} {rank : RStr → ℕ}
    (h : (parentPairs msgs).all (fun q => match q.2 with
      | some pr => decide (rank pr < rank q.1)
      | none => true) = true) :
    ∀ q ∈ parentPairs msgs, ∀ pr, q.2 = some pr → rank pr < rank q.1 := by
  intro q hq pr hpr
  have hall := List.all_eq_true.mp h q hq
  rw [hpr] at hall
  exact of_decide_eq_true hall

/-- C4 (counterexample).  Deleting an active root message (no parent, no
alternative sibling): the claim requires conversation.active_message to
become nil, but the code's delete takes no action for parentless messages,
so active_message keeps referencing the deleted id. -/
theorem message_delete_root_counterexample :
    (MessageService.delete
        ⟨[⟨"r".toList, "c1".toList, none, .character, [], true, 0, 1⟩],
         fun c => if c = "c1".toList then some "r".toList else none, []⟩
        "r".toList).map (fun s => (s.messages, s.active_message "c1".toList))
      = some ([], some "r".toList) ∧
    some "r".toList ≠ (none : Option RStr) := by
  refine ⟨by decide, by decide⟩

/-- C4 (amended).  Deleting an active-branch message that has a parent
re-points conversation.active_message to the parent when no alternative
sibling exists, and otherwise to the deepest active-path node of the first
alternative sibling's branch; in both cases the new active_message differs
from the deleted id (given well-formed, acyclic message rows).  Deleting an
active-branch message with no parent leaves active_message unchanged, so it
may keep referencing the deleted root (never nil). -/
theorem message_delete_repoint_amended
    (st : Store) (mid : RStr) (m : Message) (rank : RStr → ℕ)
    (hm : MessageRepo.find_by_id st mid = some m)
    (hact : m.is_active_branch = true)
    (hnd : (st.messages.map (·.id)).Nodup)
    (hR : ∀ q ∈ parentPairs st.messages, ∀ pr, q.2 = some pr → rank pr < rank q.1) :
    (m.parent_id = none → ∃ st2, MessageService.delete st mid = some st2 ∧
      st2.active_message = st.active_message) ∧
    (∀ pid, m.parent_id = some pid →
      (MessageRepo.find_siblings_of st m).find? (fun s => s.id ≠ mid) = none →
      ∃ st2, MessageService.delete st mid = some st2 ∧
        st2.active_message m.conversation_id = some pid ∧ pid ≠ mid) ∧
    (∀ pid alt, m.parent_id = some pid →
      (MessageRepo.find_siblings_of st m).find? (fun s => s.id ≠ mid) = some alt →
      alt.conversation_id = m.conversation_id →
      ∃ st2 d, MessageService.delete st mid = some st2 ∧
        st2.active_message m.conversation_id = some d ∧
        Desc (parentPairs st.messages) alt.id d ∧ d ≠ mid) := by
  have hmmem : m ∈ st.messages := (find_by_id_spec hm).1
  have hmid : m.id = mid := (find_by_id_spec hm).2
  refine ⟨?_, ?_, ?_⟩
  · intro hnone
    refine ⟨MessageRepo.deleteMsg st mid, ?_, rfl⟩
    rw [MessageService.delete, hm]
    simp [hact, hnone]
  · intro pid hpid hsibnone
    refine ⟨MessageRepo.deleteMsg
      (ConversationRepo.update_active_message st m.conversation_id pid) mid, ?_, ?_, ?_⟩
    · rw [MessageService.delete, hm]
      simp only [decide_not] at hsibnone
      simp [hact, hpid, hsibnone]
    · show (ConversationRepo.update_active_message st m.conversation_id pid).active_message
        m.conversation_id = some pid
      rw [ConversationRepo.update_active_message]
      simp
    · have hpair : ((mid, some pid) : RStr × Option RStr) ∈ parentPairs st.messages :=
        List.mem_map.mpr ⟨m, hmmem, by rw [hmid, hpid]⟩
      have hrank : rank pid < rank mid := hR (mid, some pid) hpair pid rfl
      intro he
      rw [he] at hrank
      omega
  · intro pid alt hpid hsib hconv
    have haltsib := (mem_siblings_parent hpid).mp (List.mem_of_find?_eq_some hsib)
    have hpredalt := List.find?_some hsib
    have haltne : alt.id ≠ mid := of_decide_eq_true hpredalt
    have htar : MessageRepo.find_by_id st alt.id = some alt :=
      find_by_id_of_mem haltsib.1 hnd
    obtain ⟨st4, d, hswitch, hpp, hdesc⟩ := switch_to_branch_spec st alt.id alt htar
    refine ⟨MessageRepo.deleteMsg
      (ConversationRepo.update_active_message st4 alt.conversation_id d.id) mid,
      d.id, ?_, ?_, hdesc, ?_⟩
    · rw [MessageService.delete, hm]
      have hsib2 := hsib
      simp only [decide_not] at hsib2
      simp [hact, hpid, hsib2, hswitch]
    · show (ConversationRepo.update_active_message st4 alt.conversation_id d.id).active_message
        m.conversation_id = some d.id
      rw [ConversationRepo.update_active_message]
      simp [hconv]
    · intro hd
      rcases Desc.last_step hdesc with heq | ⟨z, hz, hdz⟩
      · exact haltne (heq.trans hd)
      · rw [hd] at hz
        rcases List.mem_map.mp hz with ⟨m2, hm2mem, hm2eq⟩
        have hm2id : m2.id = mid := congrArg Prod.fst hm2eq
        have hm2par : m2.parent_id = some z := congrArg Prod.snd hm2eq
        have hm2m : m2 = m :=
          List.inj_on_of_nodup_map hnd hm2mem hmmem (by rw [hm2id, hmid])
        have hzpid : z = pid := by
          rw [hm2m, hpid] at hm2par
          exact (Option.some.injEq _ _).mp hm2par.symm
        rw [hzpid] at hdz
        have h1 : rank alt.id ≤ rank pid := Desc.rank_le hR hdz
        have hpair2 : ((alt.id, some pid) : RStr × Option RStr) ∈ parentPairs st.messages :=
          List.mem_map.mpr ⟨alt, haltsib.1, by rw [haltsib.2]⟩
        have h2 : rank pid < rank alt.id := hR (alt.id, some pid) hpair2 pid rfl
        omega

/-- C4 witness: the amended statement on a concrete store (root p with
children a and m, m active and deleted, a carrying a child d): the deletion
re-points active_message to d, the deepest node of the alternative sibling's
branch. -/
theorem message_delete_repoint_amended_witness :
    ∃ st2 d, MessageService.delete
        ⟨[⟨"p".toList, "c1".toList, none, .user, [], true, 0, 1⟩,
          ⟨"a".toList, "c1".toList, some "p".toList, .character, [], false, 0, 1⟩,
          ⟨"m".toList, "c1".toList, some "p".toList, .character, [], true, 1, 1⟩,
          ⟨"d".toList, "c1".toList, some "a".toList, .character, [], false, 0, 1⟩],
         fun c => if c = "c1".toList then some "m".toList else none, []⟩
        "m".toList = some st2 ∧
      st2.active_message "c1".toList = some d ∧
      Desc (parentPairs
        [⟨"p".toList, "c1".toList, none, .user, [], true, 0, 1⟩,
         ⟨"a".toList, "c1".toList, some "p".toList, .character, [], false, 0, 1⟩,
         ⟨"m".toList, "c1".toList, some "p".toList, .character, [], true, 1, 1⟩,
         ⟨"d".toList, "c1".toList, some "a".toList, .character, [], false, 0, 1⟩])
        "a".toList d ∧ d ≠ "m".toList := by
  have h := (message_delete_repoint_amended
    ⟨[⟨"p".toList, "c1".toList, none, .user, [], true, 0, 1⟩,
      ⟨"a".toList, "c1".toList, some "p".toList, .character, [], false, 0, 1⟩,
      ⟨"m".toList, "c1".toList, some "p".toList, .character, [], true, 1, 1⟩,
      ⟨"d".toList, "c1".toList, some "a".toList, .character, [], false, 0, 1⟩],
     fun c => if c = "c1".toList then some "m".toList else none, []⟩
    "m".toList
    ⟨"m".toList, "c1".toList, some "p".toList, .character, [], true, 1, 1⟩
    (fun id => if id = "p".toList then 0 else if id = "d".toList then 2 else 1)
    (by decide) rfl (by decide) (rank_hyp_of_all (by decide))).2.2
    "p".toList
    ⟨"a".toList, "c1".toList, some "p".toList, .character, [], false, 0, 1⟩
    rfl (by decide) rfl
  exact h

end Glee
